import Mathlib

/-!
# vcf-bed: interval index, record filter, dedup consumer and completion protocol

A shallow embedding of `main.go` (package `main` of akotlar/vcf-bed) and the
properties of its interval index builder (`readBed`), per-record filter
(`processLines`), dedup callback (`main`) and completion protocol (`readVcf`).

Conventions of the embedding.

* A Go `string` is a byte sequence.  It is modelled as `List Char`, one list
  element per byte; every operation the program performs on a string (comparison
  with an ASCII literal, splitting at an ASCII byte, slicing by byte offsets,
  concatenation, decimal parsing) acts on the list elementwise.
* Go `int` values are only ever produced by `strconv.Atoi` and compared; they are
  modelled as `Int`, and `Atoi` rejects texts outside the 64 bit range.
* `log.Fatal` and run-time panics (index or slice bounds out of range) are the two
  ways a call may fail to return; both are values of `Failure`.
* A Go `map[string]T` is modelled as a function from keys to `Option T`
  (`none` for an absent key, which reads as the nil slice for `[][]int`).
-/

namespace VcfBed

/-- A Go string: a sequence of bytes, one list element per byte. -/
abbrev GoString := List Char

/-- The two abnormal terminations of the program: `log.Fatal` (exit status 1 with a
message) and a run-time panic (index or slice bounds out of range). -/
inductive Failure where
  | fatal
  | panic
  deriving DecidableEq, Repr

deriving instance DecidableEq for Except

/-- The constant `concurrency` of `main.go` line 21. -/
def concurrency : Nat := 16

/-! ## Library functions used by the program -/

/-- Go `strings.Split(s, sep)` for a one byte separator: the fields of `s` between
occurrences of `sep`; the empty string has the single field `""`. -/
def Split (sep : Char) : GoString → List GoString
  | [] => [[]]
  | c :: cs =>
    if c = sep then [] :: Split sep cs
    else
      match Split sep cs with
      | f :: fs => (c :: f) :: fs
      | [] => [[c]]

/-- Value of a sequence of decimal digits, most significant first. -/
def digitsValue (ds : GoString) : Nat :=
  ds.foldl (fun acc c => 10 * acc + (c.toNat - '0'.toNat)) 0

/-- Go `strconv.Atoi`: an optional sign `+` or `-` followed by at least one decimal
digit and nothing else, whose value fits a 64 bit signed integer; `none` stands for
the returned error. -/
def Atoi (s : GoString) : Option Int :=
  let neg := s.head? = some '-'
  let ds := if s.head? = some '-' ∨ s.head? = some '+' then s.tail else s
  if ds = [] ∨ ds.all Char.isDigit = false then none
  else
    let v : Int := if neg then - (digitsValue ds : Int) else (digitsValue ds : Int)
    if v < -9223372036854775808 ∨ 9223372036854775807 < v then none else some v

/-- The rows that successive calls of `bufio.Reader.ReadString(delim)` return with a
nil error: the maximal pieces of the input that end in `delim`, delimiter included,
in order.  Bytes after the last delimiter are returned together with `io.EOF`,
which all three read loops of the program answer with `break`, so they never
reach a loop body. -/
def ReadRows (delim : Char) : GoString → List GoString
  | [] => []
  | c :: cs =>
    if c = delim then [c] :: ReadRows delim cs
    else
      match ReadRows delim cs with
      | r :: rs => (c :: r) :: rs
      | [] => []

/-! ## The interval index -/

/-- An interval as stored in the index: a Go `[]int`, built as `[]int{start, end}`. -/
abbrev Interval := List Int

/-- The index `map[string][][]int`: chromosome name to interval list; `none` is the
nil slice a Go map lookup returns for an absent key. -/
abbrev Ranges := GoString → Option (List Interval)

/-- The sort key `val[i][0]` of the comparison passed to `sort.Slice` in `readBed`.
Every element of a bucket built by `readBed` is `[]int{start, end}`, so the head
exists there. -/
def startOf (iv : Interval) : Int := iv.headD 0

/-- The contract of Go `sort.Slice(val, func(i, j) { return val[i][0] < val[j][0] })`:
the slice is rearranged (a permutation) so that no later element is less than an
earlier one.  The sort is not stable, so nothing else is known about the result. -/
structure SliceSorter where
  sort : List Interval → List Interval
  perm : ∀ l, (sort l).Perm l
  sorted : ∀ l, (sort l).Pairwise (fun a b => ¬ startOf b < startOf a)

/-- The text `"chr"`. -/
def chrPrefix : GoString := ['c', 'h', 'r']

/-- The chromosome key computed by `readBed` (lines 110-119): `record[0]` when the
first three bytes of the row are `"chr"`, else `"chr"` followed by `record[0]`.
The slice `row[0:3]` panics on a row shorter than three bytes. -/
def readBedChrom (row : GoString) (record : List GoString) : Except Failure GoString :=
  if row.length < 3 then .error .panic
  else
    match record[0]? with
    | none => .error .panic
    | some name => if row.take 3 = chrPrefix then .ok name else .ok (chrPrefix ++ name)

/-- One iteration of the read loop of `readBed` (lines 101-137) on a row returned by
`ReadString` without error. -/
def readBedRow (ranges : Ranges) (row : GoString) : Except Failure Ranges :=
  if row = [] then .ok ranges
  else
    let record := Split '\t' (row.take (row.length - 1))
    match readBedChrom row record with
    | .error f => .error f
    | .ok chr =>
      match record[1]? with
      | none => .error .panic
      | some startText =>
        match Atoi startText with
        | none => .error .fatal
        | some start =>
          match record[2]? with
          | none => .error .panic
          | some endText =>
            match Atoi endText with
            | none => .error .fatal
            | some stop =>
              match ranges chr with
              | none => .ok (Function.update ranges chr (some [[start, stop]]))
              | some bucket => .ok (Function.update ranges chr (some (bucket ++ [[start, stop]])))

/-- The read loop of `readBed` (lines 90-138) over the rows of the file. -/
def readBedLoop (ranges : Ranges) : List GoString → Except Failure Ranges
  | [] => .ok ranges
  | row :: rest =>
    match readBedRow ranges row with
    | .error f => .error f
    | .ok ranges1 => readBedLoop ranges1 rest

/-- The body of `readBed` once the file is open (lines 82-146): read all rows into an
empty map, then sort every bucket by interval start. -/
def readBedContent (S : SliceSorter) (content : GoString) : Except Failure Ranges :=
  match readBedLoop (fun _ => none) (ReadRows '\n' content) with
  | .error f => .error f
  | .ok ranges => .ok (fun chr => (ranges chr).map S.sort)

/-- The function `readBed`: `files` maps a path to the content of the file that
`os.Open` opens there (`none` when it cannot be opened). -/
def readBed (S : SliceSorter) (files : GoString → Option GoString) (bedPath : GoString) :
    Except Failure Ranges :=
  if bedPath = [] then .error .fatal
  else
    match files bedPath with
    | none => .error .fatal
    | some content => readBedContent S content

/-- The order "start not after" on intervals, the order `sort.Slice` sorts by. -/
def startLE (a b : Interval) : Prop := startOf a ≤ startOf b

instance startLE_decidable : DecidableRel startLE := fun a b =>
  inferInstanceAs (Decidable (startOf a ≤ startOf b))

instance startLE_total : IsTotal Interval startLE := ⟨fun a b => le_total (startOf a) (startOf b)⟩

instance startLE_trans : IsTrans Interval startLE :=
  ⟨fun a b c (hab : startOf a ≤ startOf b) (hbc : startOf b ≤ startOf c) => le_trans hab hbc⟩

/-- A sorter meeting the `sort.Slice` contract: insertion sort on the start key. -/
def insertionSorter : SliceSorter where
  sort := List.insertionSort startLE
  perm := List.perm_insertionSort startLE
  sorted := by
    intro l
    have h := List.sorted_insertionSort startLE l
    exact List.Pairwise.imp (fun hab => not_lt.mpr hab) h

/-! ## The per-file worker `processLines` -/

/-- A result message `[]string{key, row}` sent on the `results` channel: the variant
key and the raw row. -/
abbrev Msg := GoString × GoString

/-- The accepted filter status `"PASS"`. -/
def PASS : GoString := ['P', 'A', 'S', 'S']

/-- The variant key written to the buffer at lines 337-344:
`record[0] _ record[1] _ record[3] _ record[4]`. -/
def variantKey (chrom posText ref alt : GoString) : GoString :=
  chrom ++ ['_'] ++ posText ++ ['_'] ++ ref ++ ['_'] ++ alt

/-- Lines 308-319 of `processLines`: the record after chromosome handling.  When the
first three bytes of the row are `"chr"` the record is unchanged, otherwise
`record[0]` is overwritten with `"chr"` followed by its old value. -/
def processLinesRecord (row : GoString) (record : List GoString) :
    Except Failure (List GoString) :=
  if row.length < 3 then .error .panic
  else if row.take 3 = chrPrefix then .ok record
  else
    match record[0]? with
    | none => .error .panic
    | some name => .ok (record.set 0 (chrPrefix ++ name))

/-- The key `record[0]` with which `processLines` reads the index (lines 309, 318). -/
def processLinesChrom (row : GoString) (record : List GoString) : Except Failure GoString :=
  match processLinesRecord row record with
  | .error f => .error f
  | .ok record1 =>
    match record1[0]? with
    | none => .error .panic
    | some chrom => .ok chrom

/-- Lines 337-346: the message sent for a hit, built from the (rewritten) record and
the raw row. -/
def hitMessage (record : List GoString) (row : GoString) : Except Failure Msg :=
  match record[0]?, record[1]?, record[3]?, record[4]? with
  | some chrom, some posText, some ref, some alt => .ok (variantKey chrom posText ref alt, row)
  | _, _, _, _ => .error .panic

/-- The scan loop of lines 335-351, from index `i` on (the list is `arr[i:]`).
Returns the messages sent on `results`: one on a hit, after which the loop breaks;
none when the loop breaks because `pos > arr[i][1]` or runs off the end. -/
def scanLoop (pos : Int) (record : List GoString) (row : GoString) :
    List Interval → Except Failure (List Msg)
  | [] => .ok []
  | iv :: rest =>
    match iv[0]? with
    | none => .error .panic
    | some s =>
      match iv[1]? with
      | none => .error .panic
      | some e =>
        if pos ≥ s ∧ pos ≤ e then
          match hitMessage record row with
          | .error f => .error f
          | .ok m => .ok [m]
        else if pos > e then .ok []
        else scanLoop pos record row rest

/-- Lines 331-351: the bound check against the first start and the last end,
followed by the scan loop.  Returns the messages sent for the record. -/
def containment (pos : Int) (arr : List Interval) (record : List GoString) (row : GoString) :
    Except Failure (List Msg) :=
  match arr[0]? with
  | none => .error .panic
  | some first =>
    match first[0]? with
    | none => .error .panic
    | some s0 =>
      if pos < s0 then .ok []
      else
        match arr[arr.length - 1]? with
        | none => .error .panic
        | some last =>
          match last[1]? with
          | none => .error .panic
          | some eN => if pos > eN then .ok [] else scanLoop pos record row arr

/-- One iteration of the read loop of `processLines` (lines 296-351) on a row that
`ReadString` returned without error: the messages sent for that row.  `numChars` is
the number of line terminator bytes reported by `parse.FindEndOfLine`. -/
def processRow (numChars : Nat) (ranges : Ranges) (row : GoString) :
    Except Failure (List Msg) :=
  if row = [] ∨ row.head? = some '#' then .ok []
  else if row.length < numChars then .error .panic
  else
    let record := Split '\t' (row.take (row.length - numChars))
    match record[6]? with
    | none => .error .panic
    | some status =>
      if status ≠ PASS then .ok []
      else
        match processLinesRecord row record with
        | .error f => .error f
        | .ok record1 =>
          match record1[0]? with
          | none => .error .panic
          | some chrom =>
            match ranges chrom with
            | none => .ok []
            | some arr =>
              match record1[1]? with
              | none => .error .panic
              | some posText =>
                match Atoi posText with
                | none => .error .fatal
                | some pos => containment pos arr record1 row

/-- The read loop of `processLines` (lines 289-352) over the rows of a file: the
messages sent on `results`, in order, and the failure that stopped the worker, if
any.  With no failure the worker goes on to send its completion signal. -/
def processRows (numChars : Nat) (ranges : Ranges) : List GoString → List Msg × Option Failure
  | [] => ([], none)
  | row :: rest =>
    match processRow numChars ranges row with
    | .error f => ([], some f)
    | .ok ms => (ms ++ (processRows numChars ranges rest).1, (processRows numChars ranges rest).2)

/-- What `os.Open`, `gzip.NewReader` and `parse.FindEndOfLine` (package
`bystro-utils/parse`) deliver for a variant file: the line terminator byte, the number
of terminator bytes, the version line, and the bytes left in the reader. -/
structure OpenedVcf where
  endOfLineByte : Char
  numChars : Nat
  versionLine : GoString
  rest : GoString

/-- The pattern `"##fileformat=VCFv4"` (it has no regular expression operators, so
`regexp.MatchString` is a substring test). -/
def vcfMagic : GoString := "##fileformat=VCFv4".toList

/-- The worker `processLines`: `file` is `none` when opening, decompressing or
end-of-line detection failed. -/
def processLines (file : Option OpenedVcf) (ranges : Ranges) : List Msg × Option Failure :=
  match file with
  | none => ([], some .fatal)
  | some f =>
    if vcfMagic <:+: f.versionLine then
      processRows f.numChars ranges (ReadRows f.endOfLineByte f.rest)
    else ([], some .fatal)

/-! ## The dedup consumer of `main` -/

/-- State of the consumer: the map `seen` (a Go `map[string]int`, reading zero at an
absent key) and what `fmt.Print` has written to standard output so far. -/
structure Consumer where
  seen : GoString → Int
  out : List GoString

/-- The callback passed to `readVcf` in `main` (lines 59-64). -/
def resultFunc (st : Consumer) (data : Msg) : Consumer :=
  if st.seen data.1 = 0 then
    { seen := Function.update st.seen data.1 (st.seen data.1 + 1), out := st.out ++ [data.2] }
  else st

/-- The consumer goroutine of `readVcf` (lines 242-244) run on the messages received
from `results`, starting from the empty `seen` map of `main` line 58. -/
def consume (msgs : List Msg) : Consumer :=
  msgs.foldl resultFunc { seen := fun _ => 0, out := [] }

/-! ## The completion protocol of `readVcf` -/

/-- A worker goroutine `processLines`: still in its read loop (it may send on
`results`), or past `complete <- true` (its completion signal has been received). -/
inductive Worker where
  | scanning
  | done
  deriving DecidableEq, Repr

/-- State of the pipeline of `readVcf` (lines 235-256): the workers started, the loop
counter `i` of the wait loop (completion signals received so far), whether
`close(results)` has run, and whether some worker has sent on the closed channel. -/
structure Pipeline where
  workers : List Worker
  received : Nat
  closed : Bool
  sentOnClosed : Bool
  deriving DecidableEq, Repr

/-- The events of the pipeline: worker `w` sends a message on `results`; worker `w`
hands its completion signal to the coordinator over the unbuffered channel
`complete`; the coordinator closes `results`. -/
inductive Event where
  | publish (w : Nat)
  | complete (w : Nat)
  | close
  deriving DecidableEq, Repr

/-- Number of workers started by the loop of lines 235-237: one per matched file. -/
def workersStarted (files : List GoString) : Nat := files.length

/-- Number of completion signals received by the wait loop of lines 250-252 before
`close(results)`. -/
def signalsAwaited (_files : List GoString) : Nat := concurrency

/-- The pipeline right after the workers are started. -/
def readVcfStart (files : List GoString) : Pipeline :=
  { workers := List.replicate (workersStarted files) Worker.scanning
    received := 0
    closed := false
    sentOnClosed := false }

/-- One event of the pipeline; `none` when the event is not enabled.  A signal is
received only while the wait loop runs (`i < concurrency`), and `results` is closed
when the wait loop has finished. -/
def readVcfStep (files : List GoString) (p : Pipeline) : Event → Option Pipeline
  | .publish w =>
    if p.workers[w]? = some Worker.scanning then
      some { p with sentOnClosed := p.sentOnClosed || p.closed }
    else none
  | .complete w =>
    if p.workers[w]? = some Worker.scanning ∧ p.received < signalsAwaited files then
      some { p with workers := p.workers.set w Worker.done, received := p.received + 1 }
    else none
  | .close =>
    if p.received = signalsAwaited files ∧ p.closed = false then some { p with closed := true }
    else none

/-- A schedule of events run from a pipeline state. -/
def readVcfRun (files : List GoString) (p : Pipeline) : List Event → Option Pipeline
  | [] => some p
  | e :: es =>
    match readVcfStep files p e with
    | none => none
    | some q => readVcfRun files q es

/-- Invariant of the pipeline: one worker per file, the signals received are those of
the finished workers, and `results` is closed only once the wait loop has ended. -/
def PipelineInv (files : List GoString) (p : Pipeline) : Prop :=
  p.workers.length = files.length ∧ p.received = p.workers.count Worker.done ∧
    (p.closed = true → p.received = concurrency)

/-! ## The header stage of `readVcf` -/

/-- The column name `"#CHROM"` that ends the header. -/
def chromHeader : GoString := "#CHROM".toList

/-- The header loop of `readVcf` (lines 198-228) over the rows of the first file: the
rows printed.  Every row starting with `#` is printed, up to and including the row
whose first column is `#CHROM`; reaching the end of the file without that row leaves
`foundHeader` false, which is fatal (line 231). -/
def readVcfHeaderLoop (numChars : Nat) : List GoString → Except Failure (List GoString)
  | [] => .error .fatal
  | row :: rest =>
    if row = [] then readVcfHeaderLoop numChars rest
    else if row.length < numChars then .error .panic
    else
      let record := Split '\t' (row.take (row.length - numChars))
      let printed := if row.head? = some '#' then [row] else []
      if record[0]? = some chromHeader then .ok printed
      else
        match readVcfHeaderLoop numChars rest with
        | .error f => .error f
        | .ok out => .ok (printed ++ out)

/-- Lines 152-232 of `readVcf`, up to the start of the workers: what is printed to
standard output.  `globbed` is the result of `filepath.Glob` (`none` for its error,
which only a malformed pattern causes; a pattern matching nothing gives the empty
list), and `opened` gives what opening, decompressing and end-of-line detection deliver
for a path (`none` when one of them fails). -/
def readVcfHeader (globbed : Option (List GoString)) (opened : GoString → Option OpenedVcf) :
    Except Failure (List GoString) :=
  match globbed with
  | none => .error .fatal
  | some files =>
    match files[0]? with
    | none => .error .panic
    | some first =>
      match opened first with
      | none => .error .fatal
      | some f =>
        if vcfMagic <:+: f.versionLine then
          match readVcfHeaderLoop f.numChars (ReadRows f.endOfLineByte f.rest) with
          | .error e => .error e
          | .ok out => .ok ((f.versionLine ++ ['\n']) :: out)
        else .error .fatal

/-! ## Vocabulary of the specification -/

/-- Canonical chromosome name: the name itself when it starts with `"chr"`, else
`"chr"` followed by the name. -/
def canonName (name : GoString) : GoString :=
  if chrPrefix <+: name then name else chrPrefix ++ name

/-- A row of columns: the columns joined by the separator byte. -/
def joinCols (sep : Char) : List GoString → GoString
  | [] => []
  | [f] => f
  | f :: g :: rest => f ++ sep :: joinCols sep (g :: rest)

/-- An interval file made of newline-terminated rows of tab-separated columns. -/
def bedFile (rows : List (List GoString)) : GoString :=
  (rows.map (fun cols => joinCols '\t' cols ++ ['\n'])).flatten

/-- The interval `[]int{start, end}` of a row whose second and third columns are
integer texts. -/
def rowInterval (cols : List GoString) : Interval :=
  [(Atoi (cols.getD 1 [])).getD 0, (Atoi (cols.getD 2 [])).getD 0]

/-- The intervals of the rows whose canonical chromosome is `chrom`, in file order. -/
def rowsOf (chrom : GoString) (rows : List (List GoString)) : List Interval :=
  (rows.filter (fun cols => decide (canonName (cols.headD []) = chrom))).map rowInterval

/-- The first message of each distinct key, in arrival order. -/
def firstPerKey : List Msg → List Msg
  | [] => []
  | m :: rest => m :: (firstPerKey rest).filter (fun x => decide (x.1 ≠ m.1))

/-- The hit condition of the per-record decision: the position lies in the first
interval of the list and is not past the end of the last one. -/
def firstIntervalHit (arr : List Interval) (pos : Int) : Prop :=
  ∃ s0 e0 sN eN : Int, arr.head? = some [s0, e0] ∧ arr.getLast? = some [sN, eN] ∧
    s0 ≤ pos ∧ pos ≤ e0 ∧ pos ≤ eN

/-- An index as `readBed` builds it: every bucket is a non-empty list of two-element
intervals. -/
def WellFormedIndex (ranges : Ranges) : Prop :=
  ∀ chrom arr, ranges chrom = some arr → arr ≠ [] ∧ ∀ iv ∈ arr, iv.length = 2

/-! # Properties -/

/-! ## Splitting and joining -/

theorem Split_ne_nil (sep : Char) (s : GoString) : Split sep s ≠ [] := by
  induction s with
  | nil => simp [Split]
  | cons c cs ih =>
    unfold Split
    split
    · simp
    · split
      · simp
      · simp

theorem Split_of_not_mem (sep : Char) (f : GoString) (h : sep ∉ f) : Split sep f = [f] := by
  induction f with
  | nil => simp [Split]
  | cons c cs ih =>
    have hc : c ≠ sep := fun e => h (by simp [e])
    have hcs : sep ∉ cs := fun e => h (by simp [e])
    simp [Split, hc, ih hcs]

theorem Split_append_sep (sep : Char) (f rest : GoString) (h : sep ∉ f) :
    Split sep (f ++ sep :: rest) = f :: Split sep rest := by
  induction f with
  | nil => simp [Split]
  | cons c cs ih =>
    have hc : c ≠ sep := fun e => h (by simp [e])
    have hcs : sep ∉ cs := fun e => h (by simp [e])
    simp [Split, hc, ih hcs]

theorem Split_joinCols (sep : Char) (cols : List GoString) (hne : cols ≠ [])
    (h : ∀ f ∈ cols, sep ∉ f) : Split sep (joinCols sep cols) = cols := by
  induction cols with
  | nil => exact absurd rfl hne
  | cons f rest ih =>
    cases rest with
    | nil => simpa [joinCols] using Split_of_not_mem sep f (h f (by simp))
    | cons g rest =>
      have hf : sep ∉ f := h f (by simp)
      have ih1 := ih (by simp) (fun x hx => h x (List.mem_cons_of_mem _ hx))
      simp only [joinCols]
      rw [Split_append_sep sep f _ hf, ih1]

theorem joinCols_Split (sep : Char) (s : GoString) : joinCols sep (Split sep s) = s := by
  induction s with
  | nil => simp [Split, joinCols]
  | cons c cs ih =>
    unfold Split
    split
    · next hc =>
      cases hS : Split sep cs with
      | nil => exact absurd hS (Split_ne_nil sep cs)
      | cons g rest =>
        rw [hS] at ih
        simp [joinCols, ih, hc]
    · cases hS : Split sep cs with
      | nil => exact absurd hS (Split_ne_nil sep cs)
      | cons g rest =>
        rw [hS] at ih
        cases rest with
        | nil => simp only [joinCols] at ih ⊢; rw [ih]
        | cons g2 rest2 => simp only [joinCols] at ih ⊢; rw [← ih]; simp

theorem not_mem_of_mem_Split (sep : Char) (s f : GoString) (hf : f ∈ Split sep s) : sep ∉ f := by
  induction s generalizing f with
  | nil => simp [Split] at hf; simp [hf]
  | cons c cs ih =>
    unfold Split at hf
    split at hf
    · rcases List.mem_cons.mp hf with h | h
      · simp [h]
      · exact ih f h
    · next hc =>
      cases hS : Split sep cs with
      | nil => exact absurd hS (Split_ne_nil sep cs)
      | cons g rest =>
        rw [hS] at hf ih
        simp only [List.mem_cons] at hf
        rcases hf with h | h
        · subst h
          have := ih g (by simp)
          intro hmem
          rcases List.mem_cons.mp hmem with e | e
          · exact hc e.symm
          · exact this e
        · exact ih f (by simp [h])

/-! ## The dedup consumer -/

theorem consume_snoc (msgs : List Msg) (m : Msg) :
    consume (msgs ++ [m]) = resultFunc (consume msgs) m := by
  simp [consume, List.foldl_append]

theorem consume_seen (msgs : List Msg) :
    ∀ k : GoString, (consume msgs).seen k = if k ∈ msgs.map Prod.fst then 1 else 0 := by
  induction msgs using List.reverseRecOn with
  | nil => intro k; simp [consume]
  | append_singleton msgs m ih =>
    intro k
    have hmem : k ∈ (msgs ++ [m]).map Prod.fst ↔ (k ∈ msgs.map Prod.fst ∨ k = m.1) := by
      simp only [List.map_append, List.mem_append, List.map_cons, List.map_nil,
        List.mem_singleton]
    rw [consume_snoc]
    unfold resultFunc
    by_cases hm : (consume msgs).seen m.1 = 0
    · rw [if_pos hm]
      by_cases hk : k = m.1
      · have h1 : k ∈ (msgs ++ [m]).map Prod.fst := hmem.mpr (Or.inr hk)
        rw [if_pos h1, hk]
        simp [hm]
      · show Function.update (consume msgs).seen m.1 ((consume msgs).seen m.1 + 1) k = _
        rw [Function.update_noteq hk, ih k]
        by_cases hin : k ∈ msgs.map Prod.fst
        · rw [if_pos hin, if_pos (hmem.mpr (Or.inl hin))]
        · have h2 : k ∉ (msgs ++ [m]).map Prod.fst := fun h => (hmem.mp h).elim hin hk
          rw [if_neg hin, if_neg h2]
    · rw [if_neg hm, ih k]
      have hin : m.1 ∈ msgs.map Prod.fst := by
        by_contra hnot
        apply hm
        rw [ih m.1, if_neg hnot]
      by_cases hk : k ∈ msgs.map Prod.fst
      · rw [if_pos hk, if_pos (hmem.mpr (Or.inl hk))]
      · have h2 : k ∉ (msgs ++ [m]).map Prod.fst := by
          intro h
          rcases hmem.mp h with h | h
          · exact hk h
          · exact hk (h ▸ hin)
        rw [if_neg hk, if_neg h2]

theorem consume_out_snoc (msgs : List Msg) (m : Msg) :
    (consume (msgs ++ [m])).out =
      if m.1 ∈ msgs.map Prod.fst then (consume msgs).out else (consume msgs).out ++ [m.2] := by
  rw [consume_snoc]
  unfold resultFunc
  rw [consume_seen]
  by_cases h : m.1 ∈ msgs.map Prod.fst
  · simp [h]
  · simp [h]

theorem firstPerKey_keys (msgs : List Msg) (k : GoString) :
    k ∈ (firstPerKey msgs).map Prod.fst ↔ k ∈ msgs.map Prod.fst := by
  induction msgs with
  | nil => simp [firstPerKey]
  | cons a rest ih =>
    simp only [firstPerKey, List.map_cons, List.mem_cons]
    constructor
    · rintro (h | h)
      · exact Or.inl h
      · right
        rw [← ih]
        simp only [List.mem_map, List.mem_filter] at h ⊢
        obtain ⟨x, ⟨hx, _⟩, hk⟩ := h
        exact ⟨x, hx, hk⟩
    · rintro (h | h)
      · exact Or.inl h
      · by_cases hk : k = a.1
        · exact Or.inl hk
        · right
          rw [← ih] at h
          simp only [List.mem_map, List.mem_filter] at h ⊢
          obtain ⟨x, hx, hxk⟩ := h
          refine ⟨x, ⟨hx, ?_⟩, hxk⟩
          simp [hxk, hk]

theorem firstPerKey_nodup (msgs : List Msg) : ((firstPerKey msgs).map Prod.fst).Nodup := by
  induction msgs with
  | nil => simp [firstPerKey]
  | cons a rest ih =>
    simp only [firstPerKey, List.map_cons, List.nodup_cons]
    constructor
    · simp only [List.mem_map, List.mem_filter]
      rintro ⟨x, ⟨_, hx⟩, hxa⟩
      simp [hxa] at hx
    · exact (ih.sublist ((List.filter_sublist _).map Prod.fst))

theorem firstPerKey_snoc (msgs : List Msg) (m : Msg) :
    firstPerKey (msgs ++ [m]) =
      if m.1 ∈ msgs.map Prod.fst then firstPerKey msgs else firstPerKey msgs ++ [m] := by
  induction msgs with
  | nil => simp [firstPerKey]
  | cons a rest ih =>
    show firstPerKey (a :: (rest ++ [m])) = _
    rw [firstPerKey, ih]
    by_cases h1 : m.1 ∈ rest.map Prod.fst
    · have h3 : m.1 ∈ (a :: rest).map Prod.fst := List.mem_cons_of_mem _ h1
      rw [if_pos h1, if_pos h3, firstPerKey]
    · rw [if_neg h1]
      by_cases h2 : m.1 = a.1
      · have h3 : m.1 ∈ (a :: rest).map Prod.fst := by simp [h2]
        rw [if_pos h3, firstPerKey, List.filter_append]
        simp [h2]
      · have h3 : m.1 ∉ (a :: rest).map Prod.fst := by
          simp only [List.map_cons, List.mem_cons, not_or]
          exact ⟨h2, h1⟩
        rw [if_neg h3, firstPerKey, List.filter_append]
        simp [h2]

theorem consume_out (msgs : List Msg) :
    (consume msgs).out = (firstPerKey msgs).map Prod.snd := by
  induction msgs using List.reverseRecOn with
  | nil => simp [consume, firstPerKey]
  | append_singleton msgs m ih =>
    rw [consume_out_snoc, firstPerKey_snoc, ih]
    by_cases h : m.1 ∈ msgs.map Prod.fst
    · simp [h]
    · simp [h]

theorem firstPerKey_length (msgs : List Msg) :
    (firstPerKey msgs).length = ((msgs.map Prod.fst).dedup).length := by
  have hperm : ((firstPerKey msgs).map Prod.fst).Perm ((msgs.map Prod.fst).dedup) := by
    rw [List.perm_ext_iff_of_nodup (firstPerKey_nodup msgs) (List.nodup_dedup _)]
    intro k
    rw [firstPerKey_keys, List.mem_dedup]
  simpa using hperm.length_eq

/-- C3 (dedup emission, first seen wins): for every finite sequence of result messages
fed to the callback of `main`, the emitted output is the raw lines of the first message
of each distinct key, in arrival order; it has exactly one line per distinct key; and a
further message emits nothing when its key was carried by an earlier message, its raw
line otherwise. -/
theorem dedup_first_seen_wins (msgs : List Msg) :
    (consume msgs).out = (firstPerKey msgs).map Prod.snd ∧
    (consume msgs).out.length = ((msgs.map Prod.fst).dedup).length ∧
    (consume []).out = [] ∧
    ∀ m : Msg, (consume (msgs ++ [m])).out =
      if m.1 ∈ msgs.map Prod.fst then (consume msgs).out else (consume msgs).out ++ [m.2] := by
  refine ⟨consume_out msgs, ?_, rfl, consume_out_snoc msgs⟩
  rw [consume_out, List.length_map, firstPerKey_length]

/-- C2 (dedup count) at the same key arriving twice: two messages carry the key
`chr1_150_A_G`, and the callback of `main` leaves `seen` at 1 for it, because the
increment sits inside the branch taken only while the count is zero. -/
theorem seen_count_same_key_twice :
    ([("chr1_150_A_G".toList, "1\t150\t.\tA\tG\t50\tPASS\t.\n".toList),
      ("chr1_150_A_G".toList, "chr1\t150\trs1\tA\tG\t9\tPASS\t.\n".toList)].filter
        (fun m => decide (m.1 = "chr1_150_A_G".toList))).length = 2 ∧
    (consume [("chr1_150_A_G".toList, "1\t150\t.\tA\tG\t50\tPASS\t.\n".toList),
      ("chr1_150_A_G".toList, "chr1\t150\trs1\tA\tG\t9\tPASS\t.\n".toList)]).seen
        "chr1_150_A_G".toList = 1 := by
  decide

/-! ## The completion protocol -/

theorem count_done_set (l : List Worker) (w : Nat) (h : l[w]? = some Worker.scanning) :
    (l.set w Worker.done).count Worker.done = l.count Worker.done + 1 := by
  induction l generalizing w with
  | nil => simp at h
  | cons a rest ih =>
    cases w with
    | zero =>
      simp only [List.getElem?_cons_zero, Option.some.injEq] at h
      subst h
      simp [List.set, List.count_cons]
    | succ w =>
      simp only [List.getElem?_cons_succ] at h
      simp [List.set, List.count_cons, ih w h]
      omega

theorem readVcfStep_inv (files : List GoString) (p q : Pipeline) (e : Event)
    (hp : PipelineInv files p) (h : readVcfStep files p e = some q) : PipelineInv files q := by
  obtain ⟨h1, h2, h3⟩ := hp
  cases e with
  | publish w =>
    simp only [readVcfStep] at h
    split at h
    · cases h
      exact ⟨h1, h2, h3⟩
    · cases h
  | complete w =>
    simp only [readVcfStep] at h
    split at h
    · next hc =>
      cases h
      refine ⟨by simpa using h1, ?_, ?_⟩
      · show p.received + 1 = (p.workers.set w Worker.done).count Worker.done
        rw [count_done_set _ _ hc.1, h2]
      · intro hcl
        have := h3 hcl
        have := hc.2
        simp only [signalsAwaited] at this
        omega
    · cases h
  | close =>
    simp only [readVcfStep] at h
    split at h
    · next hc =>
      cases h
      exact ⟨h1, h2, fun _ => hc.1⟩
    · cases h

theorem readVcfRun_inv (files : List GoString) (es : List Event) :
    ∀ p q : Pipeline, PipelineInv files p → readVcfRun files p es = some q →
      PipelineInv files q := by
  induction es with
  | nil =>
    intro p q hp h
    simp only [readVcfRun, Option.some.injEq] at h
    exact h ▸ hp
  | cons e es ih =>
    intro p q hp h
    simp only [readVcfRun] at h
    cases hs : readVcfStep files p e with
    | none => rw [hs] at h; cases h
    | some r =>
      rw [hs] at h
      exact ih r q (readVcfStep_inv files p r e hp hs) h

theorem readVcfStart_inv (files : List GoString) : PipelineInv files (readVcfStart files) := by
  refine ⟨by simp [readVcfStart, workersStarted], ?_, by simp [readVcfStart]⟩
  simp [readVcfStart, List.count_replicate]

/-- With fewer than `concurrency` matched files the wait loop never ends: no schedule
reaches `close(results)`. -/
theorem readVcf_never_closes (files : List GoString) (h : files.length < concurrency)
    (es : List Event) (q : Pipeline)
    (hrun : readVcfRun files (readVcfStart files) es = some q) : q.closed = false := by
  obtain ⟨h1, h2, h3⟩ := readVcfRun_inv files es _ q (readVcfStart_inv files) hrun
  cases hc : q.closed with
  | false => rfl
  | true =>
    have h4 := h3 hc
    have h5 : q.workers.count Worker.done ≤ q.workers.length := List.count_le_length _ _
    omega

/-- C4 (completion protocol) at 17 matched files and at one: `readVcf` starts one worker
per file but its wait loop receives `concurrency` = 16 signals whatever the number of
files.  With 17 files the schedule "workers 0 to 15 finish, the coordinator closes
`results`, worker 16 publishes" is enabled and ends with a send on the closed queue;
with one file 16 signals are awaited from one worker. -/
theorem close_before_every_worker_done :
    workersStarted (List.replicate 17 "f.vcf.gz".toList) = 17 ∧
    signalsAwaited (List.replicate 17 "f.vcf.gz".toList) = 16 ∧
    readVcfRun (List.replicate 17 "f.vcf.gz".toList)
        (readVcfStart (List.replicate 17 "f.vcf.gz".toList))
        ((List.range 16).map Event.complete ++ [Event.close, Event.publish 16]) =
      some { workers := List.replicate 16 Worker.done ++ [Worker.scanning]
             received := 16
             closed := true
             sentOnClosed := true } ∧
    workersStarted ["f.vcf.gz".toList] = 1 ∧
    signalsAwaited ["f.vcf.gz".toList] = 16 := by
  decide

/-! ## Chromosome canonicalisation -/

theorem readBedChrom_eq_processLinesChrom (row : GoString) (record : List GoString) :
    readBedChrom row record = processLinesChrom row record := by
  unfold readBedChrom processLinesChrom processLinesRecord
  by_cases h3 : row.length < 3
  · simp [h3]
  · by_cases hc : row.take 3 = chrPrefix
    · cases record with
      | nil => simp [h3, hc]
      | cons f rest => simp [h3, hc]
    · cases record with
      | nil => simp [h3, hc]
      | cons f rest => simp [h3, hc]

theorem take3_eq_chr_iff (f tl : GoString) (htab : '\t' ∉ f) :
    (f ++ '\t' :: tl).take 3 = chrPrefix ↔ chrPrefix <+: f := by
  match f, htab with
  | [], _ => simp [chrPrefix, List.take]
  | [a], _ =>
    simp only [chrPrefix, List.singleton_append, List.take, List.cons.injEq]
    constructor
    · rintro ⟨_, h, _⟩
      exact absurd h (by decide)
    · intro h
      have := h.length_le
      simp at this
  | [a, b], _ =>
    simp only [chrPrefix, List.cons_append, List.nil_append, List.take, List.cons.injEq]
    constructor
    · rintro ⟨_, _, h, _⟩
      exact absurd h (by decide)
    · intro h
      have := h.length_le
      simp at this
  | a :: b :: c :: rest, _ =>
    simp only [chrPrefix, List.cons_append, List.take, List.cons.injEq, and_true]
    constructor
    · rintro ⟨h1, h2, h3⟩
      subst h1 h2 h3
      exact ⟨rest, rfl⟩
    · rintro ⟨t, ht⟩
      simp only [List.cons_append, List.nil_append, List.cons.injEq] at ht
      exact ⟨ht.1.symm, ht.2.1.symm, ht.2.2.1.symm⟩

theorem canonName_idem (x : GoString) : canonName (canonName x) = canonName x := by
  unfold canonName
  by_cases h : chrPrefix <+: x
  · simp [h]
  · simp [h]

theorem canonName_of_not_prefix (x : GoString) (h : ¬ chrPrefix <+: x) :
    canonName x = chrPrefix ++ x ∧ canonName (chrPrefix ++ x) = chrPrefix ++ x := by
  unfold canonName
  simp [h]

theorem chrPrefix_prefix_canonName (x : GoString) : chrPrefix <+: canonName x := by
  unfold canonName
  by_cases h : chrPrefix <+: x
  · simp [h]
  · simp [h]

/-- The chromosome key of a row whose first column is `f`: its canonical name. -/
theorem processLinesChrom_row (n : Nat) (f tl : GoString) (htab : '\t' ∉ f)
    (hlen : 2 ≤ tl.length) (hn : n + 1 ≤ tl.length) :
    processLinesChrom (f ++ '\t' :: tl)
        (Split '\t' ((f ++ '\t' :: tl).take ((f ++ '\t' :: tl).length - n))) =
      .ok (canonName f) := by
  have htake : (f ++ '\t' :: tl).take ((f ++ '\t' :: tl).length - n) =
      f ++ '\t' :: tl.take (tl.length - n) := by
    have e : (f ++ '\t' :: tl).length - n = f.length + (1 + (tl.length - n)) := by
      simp only [List.length_append, List.length_cons]
      omega
    rw [e, List.take_append, Nat.add_comm 1, List.take_succ_cons]
  rw [htake, Split_append_sep _ _ _ htab]
  unfold processLinesChrom processLinesRecord
  have h3 : ¬ (f ++ '\t' :: tl).length < 3 := by
    simp only [List.length_append, List.length_cons]
    omega
  rw [if_neg h3]
  by_cases hc : chrPrefix <+: f
  · rw [if_pos ((take3_eq_chr_iff f tl htab).mpr hc)]
    simp [canonName, hc]
  · rw [if_neg (fun h => hc ((take3_eq_chr_iff f tl htab).mp h))]
    simp [canonName, hc]

/-! ## The record handling of `processLines` on a row of columns -/

theorem processLinesRecord_row (f tl : GoString) (rest : List GoString) (htab : '\t' ∉ f)
    (hlen : 2 ≤ tl.length) :
    processLinesRecord (f ++ '\t' :: tl) (f :: rest) = .ok (canonName f :: rest) := by
  unfold processLinesRecord
  have h3 : ¬ (f ++ '\t' :: tl).length < 3 := by
    simp only [List.length_append, List.length_cons]
    omega
  rw [if_neg h3]
  by_cases hc : chrPrefix <+: f
  · rw [if_pos ((take3_eq_chr_iff f tl htab).mpr hc)]
    simp [canonName, hc]
  · rw [if_neg (fun h => hc ((take3_eq_chr_iff f tl htab).mp h))]
    simp [canonName, hc]

/-- The value of `processRow` on a row of at least seven tab-free columns followed by
`numChars` terminator bytes. -/
theorem processRow_cols (n : Nat) (ranges : Ranges) (c0 c1 c2 c3 c4 c5 c6 : GoString)
    (rest : List GoString) (term : GoString)
    (htab : ∀ f ∈ c0 :: c1 :: c2 :: c3 :: c4 :: c5 :: c6 :: rest, '\t' ∉ f)
    (hterm : term.length = n) :
    processRow n ranges (joinCols '\t' (c0 :: c1 :: c2 :: c3 :: c4 :: c5 :: c6 :: rest) ++ term) =
      if (joinCols '\t' (c0 :: c1 :: c2 :: c3 :: c4 :: c5 :: c6 :: rest) ++ term).head? = some '#'
      then .ok []
      else if c6 ≠ PASS then .ok []
      else
        match ranges (canonName c0) with
        | none => .ok []
        | some arr =>
          match Atoi c1 with
          | none => .error .fatal
          | some pos =>
            containment pos arr (canonName c0 :: c1 :: c2 :: c3 :: c4 :: c5 :: c6 :: rest)
              (joinCols '\t' (c0 :: c1 :: c2 :: c3 :: c4 :: c5 :: c6 :: rest) ++ term) := by
  have hsplit := Split_joinCols '\t' (c0 :: c1 :: c2 :: c3 :: c4 :: c5 :: c6 :: rest)
    (by simp) htab
  generalize hrow : joinCols '\t' (c0 :: c1 :: c2 :: c3 :: c4 :: c5 :: c6 :: rest) = body
    at hsplit ⊢
  have hshape : ∃ tl, body ++ term = c0 ++ '\t' :: tl ∧ 2 ≤ tl.length := by
    refine ⟨joinCols '\t' (c1 :: c2 :: c3 :: c4 :: c5 :: c6 :: rest) ++ term, ?_, ?_⟩
    · rw [← hrow]; simp [joinCols]
    · simp only [joinCols, List.length_append, List.length_cons]
      omega
  obtain ⟨tl, htl, htl2⟩ := hshape
  have hne : body ++ term ≠ [] := by
    rw [htl]; simp
  have htake : (body ++ term).take ((body ++ term).length - n) = body := by
    rw [List.length_append, hterm, Nat.add_sub_cancel]
    exact List.take_left' rfl
  have hlen : ¬ (body ++ term).length < n := by
    rw [List.length_append, hterm]; omega
  have hc0 : '\t' ∉ c0 := htab c0 (by simp)
  unfold processRow
  by_cases hhash : (body ++ term).head? = some '#'
  · simp [hhash]
  · rw [if_neg (fun h => h.elim hne hhash), if_neg hlen, if_neg hhash]
    simp only [htake, hsplit]
    by_cases hpass : c6 = PASS
    · subst hpass
      have hrec := processLinesRecord_row c0 tl (c1 :: c2 :: c3 :: c4 :: c5 :: PASS :: rest)
        hc0 htl2
      rw [← htl] at hrec
      simp only [List.getElem?_cons_succ, List.getElem?_cons_zero, ne_eq,
        not_true_eq_false, if_false, hrec]
    · simp [hpass]

/-! ## Consequences of the `sort.Slice` contract -/

theorem SliceSorter.sort_nil (S : SliceSorter) : S.sort [] = [] :=
  List.Perm.eq_nil (S.perm [])

theorem SliceSorter.sort_singleton (S : SliceSorter) (a : Interval) : S.sort [a] = [a] :=
  List.perm_singleton.mp (S.perm [a])

/-- A bucket whose starts are strictly increasing is left as it is by every sorter. -/
theorem SliceSorter.sort_of_strictly_sorted (S : SliceSorter) (l : List Interval)
    (h : l.Pairwise (fun a b => startOf a < startOf b)) : S.sort l = l := by
  have hne : l.Pairwise (fun a b => startOf a ≠ startOf b) := h.imp (fun hab => ne_of_lt hab)
  have hne2 : (S.sort l).Pairwise (fun a b => startOf a ≠ startOf b) :=
    ((S.perm l).pairwise_iff (fun hab => Ne.symm hab)).mpr hne
  have hlt : (S.sort l).Pairwise (fun a b => startOf a < startOf b) :=
    ((S.sorted l).and hne2).imp (fun hab => lt_of_le_of_ne (not_lt.mp hab.1) hab.2)
  have hanti : IsAntisymm Interval (fun a b => startOf a < startOf b) :=
    ⟨fun a b h1 h2 => absurd h1 (not_lt_of_gt h2)⟩
  exact List.eq_of_perm_of_sorted (S.perm l) hlt h

/-! ## Reading a bucket of the index -/

theorem readBedContent_bucket (S : SliceSorter) (content chrom : GoString)
    (bucket : Option (List Interval))
    (h : (readBedLoop (fun _ => none) (ReadRows '\n' content)).map (fun r => r chrom) =
      .ok bucket) :
    ∃ idx, readBedContent S content = .ok idx ∧ idx chrom = bucket.map S.sort := by
  unfold readBedContent
  cases hl : readBedLoop (fun _ => none) (ReadRows '\n' content) with
  | error f => rw [hl] at h; cases h
  | ok r =>
    rw [hl] at h
    simp only [Except.map, Except.ok.injEq] at h
    exact ⟨_, rfl, by simp [h]⟩

/-! ## The containment check -/

/-- C1 (containment completeness) at the interval file `1 1 2` / `1 5 6` and a PASS
record at chromosome 1, position 5: whatever the sorter, `readBed` returns the bucket
`[[1,2],[5,6]]` for `chr1`, position 5 lies in the interval (5,6) of that bucket, and
`processLines` sends no message for the record: the scan loop breaks at index 0 because
`pos > arr[0][1]`. -/
theorem containment_misses_later_interval (S : SliceSorter) :
    ∃ idx, readBedContent S "1\t1\t2\n1\t5\t6\n".toList = .ok idx ∧
      idx "chr1".toList = some [[1, 2], [5, 6]] ∧
      ((5 : Int) ≤ 5 ∧ (5 : Int) ≤ 6) ∧
      processRow 1 idx "1\t5\t.\tA\tG\t50\tPASS\t.\n".toList = .ok [] := by
  obtain ⟨idx, hidx, hb⟩ := readBedContent_bucket S "1\t1\t2\n1\t5\t6\n".toList "chr1".toList
    (some [[1, 2], [5, 6]]) (by decide)
  have hs : S.sort [[1, 2], [5, 6]] = [[1, 2], [5, 6]] :=
    S.sort_of_strictly_sorted _ (by decide)
  rw [Option.map_some', hs] at hb
  refine ⟨idx, hidx, hb, by decide, ?_⟩
  have hrow : "1\t5\t.\tA\tG\t50\tPASS\t.\n".toList =
      joinCols '\t' ["1".toList, "5".toList, ".".toList, "A".toList, "G".toList, "50".toList,
        PASS, ".".toList] ++ ['\n'] := by decide
  have hc : canonName "1".toList = "chr1".toList := by decide
  rw [hrow, processRow_cols 1 idx "1".toList "5".toList ".".toList "A".toList "G".toList
      "50".toList PASS [".".toList] ['\n'] (by decide) rfl,
    if_neg (by decide), if_neg (by decide), hc, hb]
  decide

theorem containment_out_of_bounds (pos : Int) (pairs : List (Int × Int)) (hne : pairs ≠ [])
    (hout : (∀ iv ∈ pairs, pos < iv.1) ∨ (∀ iv ∈ pairs, iv.2 < pos))
    (record : List GoString) (row : GoString) :
    containment pos (pairs.map (fun iv => [iv.1, iv.2])) record row = .ok [] := by
  have hlast : (pairs.map (fun iv : Int × Int => [iv.1, iv.2]))[(pairs.map
      (fun iv : Int × Int => [iv.1, iv.2])).length - 1]? =
      some [(pairs.getLast hne).1, (pairs.getLast hne).2] := by
    rw [← List.getLast?_eq_getElem?, List.getLast?_map, List.getLast?_eq_getLast _ hne]
    rfl
  cases pairs with
  | nil => exact absurd rfl hne
  | cons a rest =>
    unfold containment
    rw [hlast]
    simp only [List.map_cons, List.getElem?_cons_zero, List.getElem?_cons_succ]
    rcases hout with h | h
    · rw [if_pos (h a (by simp))]
    · by_cases h0 : pos < a.1
      · rw [if_pos h0]
      · rw [if_neg h0, if_pos (h _ (List.getLast_mem hne))]

/-- C5 (out-of-bounds rejection): for a non-empty interval list and a position strictly
below every start or strictly above every end, the containment check of `processLines`
sends nothing, and a record of at least seven columns whose canonical chromosome has
that list in the index and whose position column reads as that position is not
published. -/
theorem out_of_bounds_rejected (pos : Int) (pairs : List (Int × Int)) (hne : pairs ≠ [])
    (hout : (∀ iv ∈ pairs, pos < iv.1) ∨ (∀ iv ∈ pairs, iv.2 < pos)) :
    (∀ (record : List GoString) (row : GoString),
      containment pos (pairs.map (fun iv => [iv.1, iv.2])) record row = .ok []) ∧
    (∀ (n : Nat) (ranges : Ranges) (c0 c1 c2 c3 c4 c5 c6 : GoString) (rest : List GoString)
      (term : GoString),
      (∀ f ∈ c0 :: c1 :: c2 :: c3 :: c4 :: c5 :: c6 :: rest, '\t' ∉ f) →
      term.length = n →
      ranges (canonName c0) = some (pairs.map (fun iv => [iv.1, iv.2])) →
      Atoi c1 = some pos →
      processRow n ranges
        (joinCols '\t' (c0 :: c1 :: c2 :: c3 :: c4 :: c5 :: c6 :: rest) ++ term) = .ok []) := by
  refine ⟨containment_out_of_bounds pos pairs hne hout, ?_⟩
  intro n ranges c0 c1 c2 c3 c4 c5 c6 rest term htab hterm hr hp
  rw [processRow_cols n ranges c0 c1 c2 c3 c4 c5 c6 rest term htab hterm, hr, hp]
  simp only [containment_out_of_bounds pos pairs hne hout]
  split
  · rfl
  · split <;> rfl

/-- Scenario B of the specification, an instance of C5: with the single interval
(100,200) on `chr1`, the PASS record at chromosome 1, position 250 is not published. -/
theorem out_of_bounds_rejected_scenario_B :
    ([(100, 200)] : List (Int × Int)) ≠ [] ∧
    (∀ iv ∈ ([(100, 200)] : List (Int × Int)), iv.2 < 250) ∧
    processRow 1 (fun c => if c = "chr1".toList then some [[100, 200]] else none)
      (joinCols '\t' ["1".toList, "250".toList, ".".toList, "A".toList, "G".toList,
        "50".toList, PASS, ".".toList] ++ ['\n']) = .ok [] :=
  ⟨by decide, by decide,
   (out_of_bounds_rejected 250 [(100, 200)] (by decide) (Or.inr (by decide))).2 1
    (fun c => if c = "chr1".toList then some [[100, 200]] else none)
    "1".toList "250".toList ".".toList "A".toList "G".toList "50".toList PASS [".".toList]
    ['\n'] (by decide) rfl (by decide) (by decide)⟩

/-! ## Canonicalisation agreement and the filter gate -/

/-- C7 (canonicalisation agreement): the chromosome key computed by `readBed` and the
one computed by `processLines` are the same function of row and record; on a row whose
first column is `f` both yield the canonical name of `f`; canonicalisation is
idempotent; and for a name `x` not starting with `"chr"` both `x` and `"chr" ++ x`
canonicalise to `"chr" ++ x`, so an interval row named `x` and a variant record named
`"chr" ++ x`, or the reverse, use the same index key. -/
theorem canonicalisation_agreement (x : GoString) (hx : ¬ chrPrefix <+: x) (htab : '\t' ∉ x) :
    (∀ (row : GoString) (record : List GoString),
      readBedChrom row record = processLinesChrom row record) ∧
    (∀ (n : Nat) (f tl : GoString), '\t' ∉ f → 2 ≤ tl.length → n + 1 ≤ tl.length →
      readBedChrom (f ++ '\t' :: tl)
          (Split '\t' ((f ++ '\t' :: tl).take ((f ++ '\t' :: tl).length - 1))) =
        .ok (canonName f) ∧
      processLinesChrom (f ++ '\t' :: tl)
          (Split '\t' ((f ++ '\t' :: tl).take ((f ++ '\t' :: tl).length - n))) =
        .ok (canonName f)) ∧
    (∀ y : GoString, canonName (canonName y) = canonName y) ∧
    canonName x = chrPrefix ++ x ∧
    canonName (chrPrefix ++ x) = chrPrefix ++ x ∧
    (∀ (n : Nat) (bed vcf : GoString), 2 ≤ bed.length → 2 ≤ vcf.length → n + 1 ≤ vcf.length →
      readBedChrom (x ++ '\t' :: bed)
          (Split '\t' ((x ++ '\t' :: bed).take ((x ++ '\t' :: bed).length - 1))) =
        processLinesChrom ((chrPrefix ++ x) ++ '\t' :: vcf)
          (Split '\t' (((chrPrefix ++ x) ++ '\t' :: vcf).take
            (((chrPrefix ++ x) ++ '\t' :: vcf).length - n))) ∧
      readBedChrom ((chrPrefix ++ x) ++ '\t' :: bed)
          (Split '\t' (((chrPrefix ++ x) ++ '\t' :: bed).take
            (((chrPrefix ++ x) ++ '\t' :: bed).length - 1))) =
        processLinesChrom (x ++ '\t' :: vcf)
          (Split '\t' ((x ++ '\t' :: vcf).take ((x ++ '\t' :: vcf).length - n)))) := by
  have hcx : '\t' ∉ chrPrefix ++ x := by
    intro h
    rcases List.mem_append.mp h with h | h
    · exact absurd h (by decide)
    · exact htab h
  have hbed : ∀ (f tl : GoString), '\t' ∉ f → 2 ≤ tl.length →
      readBedChrom (f ++ '\t' :: tl)
          (Split '\t' ((f ++ '\t' :: tl).take ((f ++ '\t' :: tl).length - 1))) =
        .ok (canonName f) := by
    intro f tl hf hl
    rw [readBedChrom_eq_processLinesChrom]
    exact processLinesChrom_row 1 f tl hf hl (by omega)
  obtain ⟨e1, e2⟩ := canonName_of_not_prefix x hx
  refine ⟨readBedChrom_eq_processLinesChrom, ?_, canonName_idem, e1, e2, ?_⟩
  · intro n f tl hf hl hn
    exact ⟨hbed f tl hf hl, processLinesChrom_row n f tl hf hl hn⟩
  · intro n bed vcf hb hv hn
    rw [hbed x bed htab hb, hbed (chrPrefix ++ x) bed hcx hb,
      processLinesChrom_row n x vcf htab hv hn,
      processLinesChrom_row n (chrPrefix ++ x) vcf hcx hv hn, e1, e2]
    exact ⟨rfl, rfl⟩

/-- The round trip of the specification, an instance of C7: the names `1` and `chr1`
canonicalise to `chr1`, and the interval row `1 100 200` uses the same index key as the
variant record `chr1 150 ...`. -/
theorem canonicalisation_agreement_1_chr1 :
    ¬ chrPrefix <+: "1".toList ∧ '\t' ∉ "1".toList ∧
    canonName "1".toList = "chr1".toList ∧ canonName "chr1".toList = "chr1".toList ∧
    readBedChrom "1\t100\t200\n".toList
        (Split '\t' ("1\t100\t200\n".toList.take ("1\t100\t200\n".toList.length - 1))) =
      processLinesChrom "chr1\t150\t.\tA\tG\t50\tPASS\t.\n".toList
        (Split '\t' ("chr1\t150\t.\tA\tG\t50\tPASS\t.\n".toList.take
          ("chr1\t150\t.\tA\tG\t50\tPASS\t.\n".toList.length - 1))) :=
  ⟨by decide, by decide,
   (canonicalisation_agreement "1".toList (by decide) (by decide)).2.2.2.1,
   (canonicalisation_agreement "1".toList (by decide) (by decide)).2.2.2.2.1,
   ((canonicalisation_agreement "1".toList (by decide) (by decide)).2.2.2.2.2 1
      "100\t200\n".toList "150\t.\tA\tG\t50\tPASS\t.\n".toList
      (by decide) (by decide) (by decide)).1⟩

/-- C8 (filter gate): a row whose first byte is `#`, or whose record has no seventh
column equal to `"PASS"`, makes `processLines` send no message, whatever the index and
the position: the row is skipped, or (a record of fewer than seven columns) the worker
panics before anything is sent.  When the row starts with `#` or has a seventh
column, the row is skipped silently. -/
theorem filter_gate (n : Nat) (ranges : Ranges) (row : GoString)
    (h : row.head? = some '#' ∨
      (Split '\t' (row.take (row.length - n)))[6]? ≠ some PASS) :
    (processRow n ranges row = .ok [] ∨ processRow n ranges row = .error .panic) ∧
    (row.head? = some '#' ∨ (Split '\t' (row.take (row.length - n)))[6]?.isSome →
      processRow n ranges row = .ok []) := by
  unfold processRow
  by_cases h1 : row = [] ∨ row.head? = some '#'
  · simp [h1]
  · rw [if_neg h1]
    have hh : ¬ row.head? = some '#' := fun e => h1 (Or.inr e)
    have h6 := h.resolve_left hh
    by_cases h2 : row.length < n
    · rw [if_pos h2]
      refine ⟨Or.inr rfl, ?_⟩
      rintro (e | e)
      · exact absurd e hh
      · have : row.length - n = 0 := by omega
        rw [this] at e
        simp [Split] at e
    · rw [if_neg h2]
      cases hs : (Split '\t' (row.take (row.length - n)))[6]? with
      | none => simp [hs, hh]
      | some status =>
        have hne : status ≠ PASS := by
          intro e
          apply h6
          rw [hs, e]
        simp [hs, hne]

/-- Scenario C of the specification, an instance of C8: with the interval (100,200) on
`chr1`, the record at position 150 with filter status `q10` is not published. -/
theorem filter_gate_scenario_C :
    (("1\t150\t.\tA\tG\t50\tq10\t.\n".toList.head? = some '#' ∨
      (Split '\t' ("1\t150\t.\tA\tG\t50\tq10\t.\n".toList.take
        ("1\t150\t.\tA\tG\t50\tq10\t.\n".toList.length - 1)))[6]? ≠ some PASS)) ∧
    processRow 1 (fun c => if c = "chr1".toList then some [[100, 200]] else none)
      "1\t150\t.\tA\tG\t50\tq10\t.\n".toList = .ok [] :=
  ⟨by decide,
   (filter_gate 1 (fun c => if c = "chr1".toList then some [[100, 200]] else none)
    "1\t150\t.\tA\tG\t50\tq10\t.\n".toList (by decide)).2 (Or.inr (by decide))⟩

/-! ## What a published message is -/

theorem scanLoop_result (pos : Int) (record : List GoString) (row : GoString)
    (arr : List Interval) (ms : List Msg) (h : scanLoop pos record row arr = .ok ms) :
    ms = [] ∨ ∃ m, hitMessage record row = .ok m ∧ ms = [m] := by
  induction arr with
  | nil =>
    simp only [scanLoop, Except.ok.injEq] at h
    exact Or.inl h.symm
  | cons iv rest ih =>
    unfold scanLoop at h
    cases h0 : iv[0]? with
    | none => simp [h0] at h
    | some s =>
      cases h1 : iv[1]? with
      | none => simp [h0, h1] at h
      | some e =>
        simp only [h0, h1] at h
        by_cases hin : pos ≥ s ∧ pos ≤ e
        · rw [if_pos hin] at h
          cases hm : hitMessage record row with
          | error f => simp [hm] at h
          | ok m =>
            simp only [hm, Except.ok.injEq] at h
            exact Or.inr ⟨m, rfl, h.symm⟩
        · rw [if_neg hin] at h
          by_cases hgt : pos > e
          · rw [if_pos hgt] at h
            simp only [Except.ok.injEq] at h
            exact Or.inl h.symm
          · rw [if_neg hgt] at h
            exact ih h

theorem containment_result (pos : Int) (arr : List Interval) (record : List GoString)
    (row : GoString) (ms : List Msg) (h : containment pos arr record row = .ok ms) :
    ms = [] ∨ ∃ m, hitMessage record row = .ok m ∧ ms = [m] := by
  unfold containment at h
  cases h0 : arr[0]? with
  | none => simp [h0] at h
  | some first =>
    cases h1 : first[0]? with
    | none => simp [h0, h1] at h
    | some s0 =>
      simp only [h0, h1] at h
      by_cases hlt : pos < s0
      · rw [if_pos hlt] at h
        simp only [Except.ok.injEq] at h
        exact Or.inl h.symm
      · rw [if_neg hlt] at h
        cases h2 : arr[arr.length - 1]? with
        | none => simp [h2] at h
        | some last =>
          cases h3 : last[1]? with
          | none => simp [h2, h3] at h
          | some eN =>
            simp only [h2, h3] at h
            by_cases hgt : pos > eN
            · rw [if_pos hgt] at h
              simp only [Except.ok.injEq] at h
              exact Or.inl h.symm
            · rw [if_neg hgt] at h
              exact scanLoop_result pos record row arr ms h

/-- Every row is its record joined by tabs, followed by its last `n` bytes. -/
theorem row_eq_joinCols (n : Nat) (row : GoString) (hn : n ≤ row.length) :
    row = joinCols '\t' (Split '\t' (row.take (row.length - n))) ++ row.drop (row.length - n) ∧
    (row.drop (row.length - n)).length = n := by
  constructor
  · rw [joinCols_Split, List.take_append_drop]
  · rw [List.length_drop]
    omega

/-- A row for which `processRow` sends something: its record has the filter status
`PASS` in column seven, its canonical chromosome is in the index, its position column
is an integer text, and what is sent is the single message made of the variant key and
the row. -/
theorem processRow_published (n : Nat) (ranges : Ranges) (row : GoString) (ms : List Msg)
    (h : processRow n ranges row = .ok ms) (hne : ms ≠ []) :
    ∃ (c0 c1 c2 c3 c4 c5 : GoString) (rest : List GoString) (arr : List Interval) (pos : Int),
      Split '\t' (row.take (row.length - n)) = c0 :: c1 :: c2 :: c3 :: c4 :: c5 :: PASS :: rest ∧
      ranges (canonName c0) = some arr ∧ Atoi c1 = some pos ∧
      containment pos arr (canonName c0 :: c1 :: c2 :: c3 :: c4 :: c5 :: PASS :: rest) row =
        .ok ms ∧
      ms = [(variantKey (canonName c0) c1 c3 c4, row)] := by
  have hn : n ≤ row.length := by
    by_contra hlt
    unfold processRow at h
    by_cases h1 : row = [] ∨ row.head? = some '#'
    · rw [if_pos h1] at h
      simp only [Except.ok.injEq] at h
      exact hne h.symm
    · rw [if_neg h1, if_pos (by omega)] at h
      cases h
  have h6 : ∃ status, (Split '\t' (row.take (row.length - n)))[6]? = some status := by
    cases hs : (Split '\t' (row.take (row.length - n)))[6]? with
    | some status => exact ⟨status, rfl⟩
    | none =>
      exfalso
      unfold processRow at h
      by_cases h1 : row = [] ∨ row.head? = some '#'
      · rw [if_pos h1] at h
        simp only [Except.ok.injEq] at h
        exact hne h.symm
      · rw [if_neg h1, if_neg (by omega)] at h
        simp [hs] at h
  obtain ⟨status, hstatus⟩ := h6
  obtain ⟨hrow, hterm⟩ := row_eq_joinCols n row hn
  have htab : ∀ f ∈ Split '\t' (row.take (row.length - n)), '\t' ∉ f :=
    fun f hf => not_mem_of_mem_Split '\t' _ f hf
  generalize Split '\t' (row.take (row.length - n)) = record at hstatus hrow htab
  generalize row.drop (row.length - n) = term at hrow hterm
  rcases record with _ | ⟨c0, _ | ⟨c1, _ | ⟨c2, _ | ⟨c3, _ | ⟨c4, _ | ⟨c5, _ | ⟨c6, rest⟩⟩⟩⟩⟩⟩⟩ <;>
    simp only [List.getElem?_nil, List.getElem?_cons_succ, List.getElem?_cons_zero,
      Option.some.injEq] at hstatus <;> cases hstatus
  have hval := processRow_cols n ranges c0 c1 c2 c3 c4 c5 status rest term htab hterm
  rw [← hrow, h] at hval
  by_cases hhash : row.head? = some '#'
  · rw [if_pos hhash] at hval
    simp only [Except.ok.injEq] at hval
    exact absurd hval hne
  · rw [if_neg hhash] at hval
    by_cases hpass : status = PASS
    · subst hpass
      rw [if_neg (by simp)] at hval
      cases hr : ranges (canonName c0) with
      | none =>
        simp only [hr, Except.ok.injEq] at hval
        exact absurd hval hne
      | some arr =>
        cases hp : Atoi c1 with
        | none => simp [hr, hp] at hval
        | some pos =>
          simp only [hr, hp] at hval
          refine ⟨c0, c1, c2, c3, c4, c5, rest, arr, pos, rfl, hr, hp, hval.symm, ?_⟩
          rcases containment_result _ _ _ _ _ hval.symm with e | ⟨m, hm, e⟩
          · exact absurd e hne
          · simp only [hitMessage, List.getElem?_cons_succ, List.getElem?_cons_zero,
              Except.ok.injEq] at hm
            rw [e, ← hm]
    · rw [if_pos hpass] at hval
      simp only [Except.ok.injEq] at hval
      exact absurd hval hne

/-- C9 (published message): whenever `processLines` sends something for a row, the
record of the row has `PASS` in column seven, a canonical chromosome present in the
index and an integer position text, and what is sent is exactly one message: the key
`canon(chromosome) _ position text _ reference _ alternate` paired with the row as
read (terminator included, chromosome column untouched).  In scenario A (interval file
`1 100 200`, PASS record at chromosome 1, position 150) the message with key
`chr1_150_ref_alt` is sent, once, whatever the sorter and the alleles. -/
theorem published_message (n : Nat) (ranges : Ranges) (row : GoString) (ms : List Msg)
    (h : processRow n ranges row = .ok ms) (hne : ms ≠ []) :
    (∃ (chrom posText id ref alt qual : GoString) (rest : List GoString),
      Split '\t' (row.take (row.length - n)) =
        chrom :: posText :: id :: ref :: alt :: qual :: PASS :: rest ∧
      (ranges (canonName chrom)).isSome ∧ (Atoi posText).isSome ∧
      ms = [(variantKey (canonName chrom) posText ref alt, row)]) ∧
    (∀ (S : SliceSorter) (ref alt : GoString), '\t' ∉ ref → '\t' ∉ alt →
      ∃ idx, readBedContent S "1\t100\t200\n".toList = .ok idx ∧
        processRow 1 idx
            (joinCols '\t' ["1".toList, "150".toList, ".".toList, ref, alt, "50".toList, PASS,
              ".".toList] ++ ['\n']) =
          .ok [(variantKey "chr1".toList "150".toList ref alt,
            joinCols '\t' ["1".toList, "150".toList, ".".toList, ref, alt, "50".toList, PASS,
              ".".toList] ++ ['\n'])]) := by
  constructor
  · obtain ⟨c0, c1, c2, c3, c4, c5, rest, arr, pos, hs, hr, hp, _, hm⟩ :=
      processRow_published n ranges row ms h hne
    exact ⟨c0, c1, c2, c3, c4, c5, rest, hs, by simp [hr], by simp [hp], hm⟩
  · intro S ref alt href halt
    obtain ⟨idx, hidx, hb⟩ := readBedContent_bucket S "1\t100\t200\n".toList "chr1".toList
      (some [[100, 200]]) (by decide)
    rw [Option.map_some', S.sort_singleton] at hb
    refine ⟨idx, hidx, ?_⟩
    have htab : ∀ f ∈ ["1".toList, "150".toList, ".".toList, ref, alt, "50".toList, PASS,
        ".".toList], '\t' ∉ f := by
      intro f hf
      simp only [List.mem_cons, List.mem_singleton, List.not_mem_nil, or_false] at hf
      rcases hf with e | e | e | e | e | e | e | e <;> subst e <;>
        first | exact href | exact halt | decide
    have hc : canonName "1".toList = "chr1".toList := by decide
    have hp : Atoi "150".toList = some 150 := by decide
    rw [processRow_cols 1 idx "1".toList "150".toList ".".toList ref alt "50".toList PASS
      [".".toList] ['\n'] htab rfl, if_neg (by simp [joinCols]), if_neg (by simp), hc, hb]
    simp only [hp]
    simp [containment, scanLoop, hitMessage]

/-- Scenario A of the specification at the alleles A and G, an instance of C9. -/
theorem published_message_scenario_A :
    processRow 1 (fun c => if c = "chr1".toList then some [[100, 200]] else none)
        "1\t150\t.\tA\tG\t50\tPASS\t.\n".toList =
      .ok [("chr1_150_A_G".toList, "1\t150\t.\tA\tG\t50\tPASS\t.\n".toList)] ∧
    [("chr1_150_A_G".toList, "1\t150\t.\tA\tG\t50\tPASS\t.\n".toList)] ≠ ([] : List Msg) ∧
    ∃ (chrom posText id ref alt qual : GoString) (rest : List GoString),
      Split '\t' ("1\t150\t.\tA\tG\t50\tPASS\t.\n".toList.take
          ("1\t150\t.\tA\tG\t50\tPASS\t.\n".toList.length - 1)) =
        chrom :: posText :: id :: ref :: alt :: qual :: PASS :: rest ∧
      ((fun c => if c = "chr1".toList then some [[100, 200]] else none)
        (canonName chrom) : Option (List Interval)).isSome ∧
      (Atoi posText).isSome ∧
      [("chr1_150_A_G".toList, "1\t150\t.\tA\tG\t50\tPASS\t.\n".toList)] =
        [(variantKey (canonName chrom) posText ref alt,
          "1\t150\t.\tA\tG\t50\tPASS\t.\n".toList)] :=
  ⟨by decide, by decide,
   (published_message 1 (fun c => if c = "chr1".toList then some [[100, 200]] else none)
    "1\t150\t.\tA\tG\t50\tPASS\t.\n".toList
    [("chr1_150_A_G".toList, "1\t150\t.\tA\tG\t50\tPASS\t.\n".toList)]
    (by decide) (by decide)).1⟩

/-! ## The variant key -/

theorem append_sep_inj (sep : Char) (x y s t : GoString) (hx : sep ∉ x) (hy : sep ∉ y)
    (h : x ++ sep :: s = y ++ sep :: t) : x = y ∧ s = t := by
  have h1 := Split_append_sep sep x s hx
  rw [h, Split_append_sep sep y t hy] at h1
  have hxy : y = x := (List.cons.inj h1).1
  subst hxy
  exact ⟨rfl, (List.cons.inj (List.append_cancel_left h)).2⟩

theorem variantKey_injective (c p r a c' p' r' a' : GoString)
    (hc : '_' ∉ c) (hp : '_' ∉ p) (hr : '_' ∉ r)
    (hc' : '_' ∉ c') (hp' : '_' ∉ p') (hr' : '_' ∉ r')
    (h : variantKey c p r a = variantKey c' p' r' a') :
    c = c' ∧ p = p' ∧ r = r' ∧ a = a' := by
  simp only [variantKey, List.append_assoc, List.singleton_append] at h
  obtain ⟨e1, h⟩ := append_sep_inj '_' c c' _ _ hc hc' h
  obtain ⟨e2, h⟩ := append_sep_inj '_' p p' _ _ hp hp' h
  obtain ⟨e3, h⟩ := append_sep_inj '_' r r' _ _ hr hr' h
  exact ⟨e1, e2, e3, h⟩

theorem not_mem_of_all_isDigit (ds : GoString) (h : ds.all Char.isDigit = true) : '_' ∉ ds := by
  intro hm
  have := List.all_eq_true.mp h '_' hm
  exact absurd this (by decide)

theorem Atoi_digits (s : GoString) (v : Int) (h : Atoi s = some v) :
    (if s.head? = some '-' ∨ s.head? = some '+' then s.tail else s).all Char.isDigit = true := by
  by_contra hcon
  have hcon2 : (if s.head? = some '-' ∨ s.head? = some '+' then s.tail else s).all
      Char.isDigit = false := by simpa using hcon
  dsimp only [Atoi] at h
  rw [if_pos (Or.inr hcon2)] at h
  cases h

/-- An integer text has no underscore. -/
theorem Atoi_no_underscore (s : GoString) (v : Int) (h : Atoi s = some v) : '_' ∉ s := by
  have hall := Atoi_digits s v h
  by_cases hsign : s.head? = some '-' ∨ s.head? = some '+'
  · rw [if_pos hsign] at hall
    cases s with
    | nil => simp
    | cons c t =>
      simp only [List.head?_cons, Option.some.injEq] at hsign
      simp only [List.tail_cons] at hall
      intro hm
      rcases List.mem_cons.mp hm with e | e
      · rcases hsign with e2 | e2 <;> rw [← e] at e2 <;> exact absurd e2 (by decide)
      · exact not_mem_of_all_isDigit t hall e
  · rw [if_neg hsign] at hall
    exact not_mem_of_all_isDigit s hall

/-- C10 as stated fails: with the interval (1,10) on `chr1`, the two PASS records
`1 5 . A_C G` and `1 5 . A C_G` are both published, their (chromosome, position,
reference, alternate) tuples differ, and both get the key `chr1_5_A_C_G`. -/
theorem variant_key_collision :
    processRow 1 (fun c => if c = "chr1".toList then some [[1, 10]] else none)
        "1\t5\t.\tA_C\tG\t50\tPASS\t.\n".toList =
      .ok [("chr1_5_A_C_G".toList, "1\t5\t.\tA_C\tG\t50\tPASS\t.\n".toList)] ∧
    processRow 1 (fun c => if c = "chr1".toList then some [[1, 10]] else none)
        "1\t5\t.\tA\tC_G\t50\tPASS\t.\n".toList =
      .ok [("chr1_5_A_C_G".toList, "1\t5\t.\tA\tC_G\t50\tPASS\t.\n".toList)] ∧
    (canonName "1".toList, "5".toList, "A_C".toList, "G".toList) ≠
      (canonName "1".toList, "5".toList, "A".toList, "C_G".toList) ∧
    variantKey (canonName "1".toList) "5".toList "A_C".toList "G".toList =
      variantKey (canonName "1".toList) "5".toList "A".toList "C_G".toList := by
  decide

/-- C10 amended (variant key uniqueness without underscores): for two published
records whose canonical chromosome and reference allele contain no `_`, if the
(canonical chromosome, position text, reference, alternate) tuples differ then the keys
of the two messages differ. -/
theorem variant_key_unique (n n' : Nat) (ranges : Ranges) (row row' : GoString)
    (key key' line line' : GoString)
    (chrom posText id ref alt qual chrom' posText' id' ref' alt' qual' : GoString)
    (rest rest' : List GoString)
    (h : processRow n ranges row = .ok [(key, line)])
    (h' : processRow n' ranges row' = .ok [(key', line')])
    (hrec : Split '\t' (row.take (row.length - n)) =
      chrom :: posText :: id :: ref :: alt :: qual :: rest)
    (hrec' : Split '\t' (row'.take (row'.length - n')) =
      chrom' :: posText' :: id' :: ref' :: alt' :: qual' :: rest')
    (hc : '_' ∉ canonName chrom) (hr : '_' ∉ ref)
    (hc' : '_' ∉ canonName chrom') (hr' : '_' ∉ ref')
    (hdiff : (canonName chrom, posText, ref, alt) ≠ (canonName chrom', posText', ref', alt')) :
    key ≠ key' := by
  obtain ⟨c0, c1, c2, c3, c4, c5, rs, arr, pos, hs, _, hp, _, hm⟩ :=
    processRow_published n ranges row _ h (by simp)
  obtain ⟨d0, d1, d2, d3, d4, d5, rs', arr', pos', hs', _, hp', _, hm'⟩ :=
    processRow_published n' ranges row' _ h' (by simp)
  rw [hrec] at hs
  rw [hrec'] at hs'
  simp only [List.cons.injEq] at hs hs'
  obtain ⟨e0, e1, _, e3, e4, _⟩ := hs
  obtain ⟨f0, f1, _, f3, f4, _⟩ := hs'
  subst e0 e1 e3 e4 f0 f1 f3 f4
  simp only [List.cons.injEq, Prod.mk.injEq, and_true] at hm hm'
  intro hk
  apply hdiff
  have hkey : variantKey (canonName chrom) posText ref alt =
      variantKey (canonName chrom') posText' ref' alt' := by
    rw [← hm.1, ← hm'.1, hk]
  obtain ⟨a1, a2, a3, a4⟩ := variantKey_injective _ _ _ _ _ _ _ _ hc
    (Atoi_no_underscore _ _ hp) hr hc' (Atoi_no_underscore _ _ hp') hr' hkey
  rw [a1, a2, a3, a4]

/-- An instance of the amended C10: the records `1 5 . A G` and `chr1 5 . A C`, both
published, have different keys. -/
theorem variant_key_unique_A_G_A_C :
    processRow 1 (fun c => if c = "chr1".toList then some [[1, 10]] else none)
        "1\t5\t.\tA\tG\t50\tPASS\t.\n".toList =
      .ok [("chr1_5_A_G".toList, "1\t5\t.\tA\tG\t50\tPASS\t.\n".toList)] ∧
    processRow 1 (fun c => if c = "chr1".toList then some [[1, 10]] else none)
        "chr1\t5\t.\tA\tC\t50\tPASS\t.\n".toList =
      .ok [("chr1_5_A_C".toList, "chr1\t5\t.\tA\tC\t50\tPASS\t.\n".toList)] ∧
    "chr1_5_A_G".toList ≠ "chr1_5_A_C".toList :=
  ⟨by decide, by decide,
   variant_key_unique 1 1 (fun c => if c = "chr1".toList then some [[1, 10]] else none)
    "1\t5\t.\tA\tG\t50\tPASS\t.\n".toList "chr1\t5\t.\tA\tC\t50\tPASS\t.\n".toList
    "chr1_5_A_G".toList "chr1_5_A_C".toList
    "1\t5\t.\tA\tG\t50\tPASS\t.\n".toList "chr1\t5\t.\tA\tC\t50\tPASS\t.\n".toList
    "1".toList "5".toList ".".toList "A".toList "G".toList "50".toList
    "chr1".toList "5".toList ".".toList "A".toList "C".toList "50".toList
    [PASS, ".".toList] [PASS, ".".toList]
    (by decide) (by decide) (by decide) (by decide) (by decide) (by decide) (by decide)
    (by decide) (by decide)⟩

/-! ## Building the index -/

theorem ReadRows_append (d : Char) (r rest : GoString) (h : d ∉ r) :
    ReadRows d (r ++ d :: rest) = (r ++ [d]) :: ReadRows d rest := by
  induction r with
  | nil => simp [ReadRows]
  | cons c cs ih =>
    have hc : c ≠ d := fun e => h (by simp [e])
    have hcs : d ∉ cs := fun e => h (by simp [e])
    simp [ReadRows, hc, ih hcs]

theorem not_mem_joinCols (sep c : Char) (cols : List GoString) (hc : c ≠ sep)
    (h : ∀ f ∈ cols, c ∉ f) : c ∉ joinCols sep cols := by
  induction cols with
  | nil => simp [joinCols]
  | cons f rest ih =>
    cases rest with
    | nil => simpa [joinCols] using h f (by simp)
    | cons g rest =>
      simp only [joinCols, List.mem_append, List.mem_cons, not_or]
      exact ⟨h f (by simp), hc, ih (fun x hx => h x (List.mem_cons_of_mem _ hx))⟩

theorem ReadRows_bedFile (rows : List (List GoString))
    (h : ∀ cols ∈ rows, ∀ f ∈ cols, '\n' ∉ f) :
    ReadRows '\n' (bedFile rows) = rows.map (fun cols => joinCols '\t' cols ++ ['\n']) := by
  induction rows with
  | nil => simp [bedFile, ReadRows]
  | cons cols rest ih =>
    have h1 : '\n' ∉ joinCols '\t' cols :=
      not_mem_joinCols '\t' '\n' cols (by decide) (h cols (by simp))
    have ih1 := ih (fun c hc => h c (List.mem_cons_of_mem _ hc))
    simp only [bedFile, List.map_cons, List.flatten_cons, List.append_assoc,
      List.singleton_append] at ih1 ⊢
    rw [ReadRows_append '\n' _ _ h1, ih1]

/-- The value of `readBedRow` on a row of at least three tab-free columns. -/
theorem readBedRow_cols (ranges : Ranges) (c0 c1 c2 : GoString) (rest : List GoString)
    (htab : ∀ f ∈ c0 :: c1 :: c2 :: rest, '\t' ∉ f) :
    readBedRow ranges (joinCols '\t' (c0 :: c1 :: c2 :: rest) ++ ['\n']) =
      match Atoi c1 with
      | none => .error .fatal
      | some start =>
        match Atoi c2 with
        | none => .error .fatal
        | some stop =>
          .ok (Function.update ranges (canonName c0)
            (some ((ranges (canonName c0)).getD [] ++ [[start, stop]]))) := by
  have hsplit := Split_joinCols '\t' (c0 :: c1 :: c2 :: rest) (by simp) htab
  have hc0 : '\t' ∉ c0 := htab c0 (by simp)
  have hshape : joinCols '\t' (c0 :: c1 :: c2 :: rest) ++ ['\n'] =
      c0 ++ '\t' :: (joinCols '\t' (c1 :: c2 :: rest) ++ ['\n']) := by
    simp [joinCols]
  have hlen : 2 ≤ (joinCols '\t' (c1 :: c2 :: rest) ++ ['\n']).length := by
    simp only [joinCols, List.length_append, List.length_cons]
    omega
  have hchrom := processLinesChrom_row 1 c0 _ hc0 hlen hlen
  rw [← readBedChrom_eq_processLinesChrom, ← hshape] at hchrom
  generalize joinCols '\t' (c0 :: c1 :: c2 :: rest) = body at hsplit hchrom hshape
  have hne : body ++ ['\n'] ≠ [] := by simp
  have htake : (body ++ ['\n']).take ((body ++ ['\n']).length - 1) = body := by
    rw [List.length_append]
    exact List.take_left' rfl
  unfold readBedRow
  rw [if_neg hne]
  simp only [hchrom]
  simp only [htake, hsplit, List.getElem?_cons_succ, List.getElem?_cons_zero]
  cases Atoi c1 with
  | none => rfl
  | some start =>
    cases Atoi c2 with
    | none => rfl
    | some stop =>
      cases hr : ranges (canonName c0) with
      | none => simp [hr]
      | some bucket => simp [hr]

theorem rowsOf_cons (chrom : GoString) (cols : List GoString) (rows : List (List GoString)) :
    rowsOf chrom (cols :: rows) =
      if canonName (cols.headD []) = chrom then rowInterval cols :: rowsOf chrom rows
      else rowsOf chrom rows := by
  unfold rowsOf
  by_cases h : canonName (cols.headD []) = chrom
  · rw [if_pos h, List.filter_cons, if_pos (decide_eq_true h), List.map_cons]
  · rw [if_neg h, List.filter_cons, if_neg (fun e => h (of_decide_eq_true e))]

/-- The read loop on well-formed rows: every bucket grows by the intervals of its rows,
in file order. -/
theorem readBedLoop_rows (rows : List (List GoString)) :
    ∀ ranges : Ranges,
    (∀ cols ∈ rows, 3 ≤ cols.length) →
    (∀ cols ∈ rows, ∀ f ∈ cols, '\t' ∉ f) →
    (∀ cols ∈ rows, (Atoi (cols.getD 1 [])).isSome ∧ (Atoi (cols.getD 2 [])).isSome) →
    ∃ r1, readBedLoop ranges (rows.map (fun cols => joinCols '\t' cols ++ ['\n'])) = .ok r1 ∧
      ∀ chrom, (r1 chrom).getD [] = (ranges chrom).getD [] ++ rowsOf chrom rows ∧
        (r1 chrom = none ↔ ranges chrom = none ∧ rowsOf chrom rows = []) := by
  induction rows with
  | nil =>
    intro ranges _ _ _
    exact ⟨ranges, rfl, fun chrom => by simp [rowsOf]⟩
  | cons cols rest ih =>
    intro ranges h3 htab hint
    have hl := h3 cols (by simp)
    obtain ⟨hi1, hi2⟩ := hint cols (by simp)
    have ht := htab cols (by simp)
    rcases cols with _ | ⟨c0, _ | ⟨c1, _ | ⟨c2, more⟩⟩⟩ <;>
      simp only [List.length_nil, List.length_cons, List.length_singleton] at hl <;>
      try omega
    simp only [List.getD_cons_succ, List.getD_cons_zero] at hi1 hi2
    obtain ⟨start, hs⟩ := Option.isSome_iff_exists.mp hi1
    obtain ⟨stop, he⟩ := Option.isSome_iff_exists.mp hi2
    have hrow := readBedRow_cols ranges c0 c1 c2 more ht
    simp only [hs, he] at hrow
    obtain ⟨r1, hr1, hb⟩ := ih
      (Function.update ranges (canonName c0)
        (some ((ranges (canonName c0)).getD [] ++ [[start, stop]])))
      (fun c hc => h3 c (List.mem_cons_of_mem _ hc))
      (fun c hc => htab c (List.mem_cons_of_mem _ hc))
      (fun c hc => hint c (List.mem_cons_of_mem _ hc))
    refine ⟨r1, ?_, ?_⟩
    · simp only [List.map_cons, readBedLoop, hrow]
      exact hr1
    · intro chrom
      obtain ⟨hb1, hb2⟩ := hb chrom
      have hiv : rowInterval (c0 :: c1 :: c2 :: more) = [start, stop] := by
        simp [rowInterval, hs, he]
      rw [rowsOf_cons, hiv]
      simp only [List.headD_cons]
      by_cases hk : canonName c0 = chrom
      · subst hk
        rw [if_pos rfl]
        simp only [Function.update_same, Option.getD_some] at hb1 hb2
        refine ⟨by rw [hb1]; simp, ?_⟩
        rw [hb2]
        simp
      · rw [if_neg hk]
        have hk2 : chrom ≠ canonName c0 := fun e => hk e.symm
        simp only [Function.update_noteq hk2] at hb1 hb2
        exact ⟨hb1, hb2⟩

/-- C6 (index construction): for an interval file of newline-terminated rows with at
least three tab-separated columns whose start and end columns are integer texts,
`readBed` returns an index, and for every chromosome name the bucket it holds (empty
when the name has no bucket) is sorted ascending by start and is a permutation of the
`[start, end]` intervals of exactly the rows whose canonical chromosome is that name;
the name has no bucket exactly when no row canonicalises to it. -/
theorem index_construction (S : SliceSorter) (rows : List (List GoString))
    (h3 : ∀ cols ∈ rows, 3 ≤ cols.length)
    (hclean : ∀ cols ∈ rows, ∀ f ∈ cols, '\t' ∉ f ∧ '\n' ∉ f)
    (hint : ∀ cols ∈ rows, (Atoi (cols.getD 1 [])).isSome ∧ (Atoi (cols.getD 2 [])).isSome) :
    ∃ idx, readBedContent S (bedFile rows) = .ok idx ∧
      ∀ chrom : GoString,
        ((idx chrom).getD []).Pairwise (fun a b => startOf a ≤ startOf b) ∧
        ((idx chrom).getD []).Perm (rowsOf chrom rows) ∧
        (idx chrom = none ↔ rowsOf chrom rows = []) := by
  obtain ⟨r1, hr1, hb⟩ := readBedLoop_rows rows (fun _ => none) h3
    (fun cols hc f hf => (hclean cols hc f hf).1) hint
  have hrows := ReadRows_bedFile rows (fun cols hc f hf => (hclean cols hc f hf).2)
  refine ⟨fun chrom => (r1 chrom).map S.sort, ?_, ?_⟩
  · unfold readBedContent
    rw [hrows, hr1]
  · intro chrom
    obtain ⟨hb1, hb2⟩ := hb chrom
    simp only [Option.getD_none, List.nil_append, true_and] at hb1 hb2
    have hget : ((r1 chrom).map S.sort).getD [] = S.sort (rowsOf chrom rows) := by
      rw [← hb1]
      cases r1 chrom with
      | none => simp [S.sort_nil]
      | some b => simp
    refine ⟨?_, ?_, ?_⟩
    · rw [hget]
      exact (S.sorted _).imp (fun hab => not_lt.mp hab)
    · rw [hget]
      exact S.perm _
    · rw [← hb2]
      simp

/-- An instance of C6: the file with rows `1 5 6`, `chr2 7 9`, `1 1 2`, sorted by
insertion sort. -/
theorem index_construction_three_rows :
    (∀ cols ∈ [["1".toList, "5".toList, "6".toList], ["chr2".toList, "7".toList, "9".toList],
      ["1".toList, "1".toList, "2".toList]], 3 ≤ cols.length) ∧
    (∀ cols ∈ [["1".toList, "5".toList, "6".toList], ["chr2".toList, "7".toList, "9".toList],
      ["1".toList, "1".toList, "2".toList]], ∀ f ∈ cols, '\t' ∉ f ∧ '\n' ∉ f) ∧
    (∀ cols ∈ [["1".toList, "5".toList, "6".toList], ["chr2".toList, "7".toList, "9".toList],
      ["1".toList, "1".toList, "2".toList]],
      (Atoi (cols.getD 1 [])).isSome ∧ (Atoi (cols.getD 2 [])).isSome) ∧
    bedFile [["1".toList, "5".toList, "6".toList], ["chr2".toList, "7".toList, "9".toList],
      ["1".toList, "1".toList, "2".toList]] = "1\t5\t6\nchr2\t7\t9\n1\t1\t2\n".toList ∧
    rowsOf "chr1".toList [["1".toList, "5".toList, "6".toList],
      ["chr2".toList, "7".toList, "9".toList], ["1".toList, "1".toList, "2".toList]] =
      [[5, 6], [1, 2]] ∧
    ∃ idx, readBedContent insertionSorter
        (bedFile [["1".toList, "5".toList, "6".toList], ["chr2".toList, "7".toList, "9".toList],
          ["1".toList, "1".toList, "2".toList]]) = .ok idx ∧
      ∀ chrom : GoString,
        ((idx chrom).getD []).Pairwise (fun a b => startOf a ≤ startOf b) ∧
        ((idx chrom).getD []).Perm (rowsOf chrom [["1".toList, "5".toList, "6".toList],
          ["chr2".toList, "7".toList, "9".toList], ["1".toList, "1".toList, "2".toList]]) ∧
        (idx chrom = none ↔ rowsOf chrom [["1".toList, "5".toList, "6".toList],
          ["chr2".toList, "7".toList, "9".toList], ["1".toList, "1".toList, "2".toList]] = []) :=
  ⟨by decide, by decide, by decide, by decide, by decide,
   index_construction insertionSorter
    [["1".toList, "5".toList, "6".toList], ["chr2".toList, "7".toList, "9".toList],
      ["1".toList, "1".toList, "2".toList]] (by decide) (by decide) (by decide)⟩

/-! ## What the index holds -/

/-- A successful iteration of the read loop of `readBed` either leaves the map as it
is (the empty row) or appends the interval read from columns two and three of the
record to one bucket. -/
theorem readBedRow_ok (ranges r1 : Ranges) (row : GoString)
    (h : readBedRow ranges row = .ok r1) :
    r1 = ranges ∨ ∃ (chr : GoString) (start stop : Int),
      Atoi ((Split '\t' (row.take (row.length - 1))).getD 1 []) = some start ∧
      Atoi ((Split '\t' (row.take (row.length - 1))).getD 2 []) = some stop ∧
      r1 = Function.update ranges chr (some ((ranges chr).getD [] ++ [[start, stop]])) := by
  unfold readBedRow at h
  by_cases h0 : row = []
  · rw [if_pos h0] at h
    simp only [Except.ok.injEq] at h
    exact Or.inl h.symm
  · rw [if_neg h0] at h
    right
    generalize Split '\t' (row.take (row.length - 1)) = record at h ⊢
    cases hc : readBedChrom row record with
    | error f => simp [hc] at h
    | ok chr =>
      cases h1 : record[1]? with
      | none => simp [hc, h1] at h
      | some startText =>
        cases ha : Atoi startText with
        | none => simp [hc, h1, ha] at h
        | some start =>
          cases h2 : record[2]? with
          | none => simp [hc, h1, ha, h2] at h
          | some endText =>
            cases hb : Atoi endText with
            | none => simp [hc, h1, ha, h2, hb] at h
            | some stop =>
              simp only [hc, h1, ha, h2, hb] at h
              refine ⟨chr, start, stop, ?_, ?_, ?_⟩
              · simp [List.getD, h1, ha]
              · simp [List.getD, h2, hb]
              · cases hr : ranges chr with
                | none =>
                  simp only [hr, Except.ok.injEq] at h
                  simp [← h]
                | some bucket =>
                  simp only [hr, Except.ok.injEq] at h
                  simp [← h]

/-- An invariant of the read loop of `readBed`: when every bucket of the map is
non-empty and holds only intervals with the property `P`, and the interval read from
any row has `P`, the same is true of the map after the loop. -/
theorem readBedLoop_invariant (P : Interval → Prop) (rows : List GoString) :
    ∀ ranges r1 : Ranges, readBedLoop ranges rows = .ok r1 →
    (∀ chrom arr, ranges chrom = some arr → arr ≠ [] ∧ ∀ iv ∈ arr, P iv) →
    (∀ row ∈ rows, ∀ start stop : Int,
      Atoi ((Split '\t' (row.take (row.length - 1))).getD 1 []) = some start →
      Atoi ((Split '\t' (row.take (row.length - 1))).getD 2 []) = some stop →
      P [start, stop]) →
    ∀ chrom arr, r1 chrom = some arr → arr ≠ [] ∧ ∀ iv ∈ arr, P iv := by
  induction rows with
  | nil =>
    intro ranges r1 h hinv _
    simp only [readBedLoop, Except.ok.injEq] at h
    exact h ▸ hinv
  | cons row rest ih =>
    intro ranges r1 h hinv hrows
    simp only [readBedLoop] at h
    cases hrow : readBedRow ranges row with
    | error f => simp [hrow] at h
    | ok r0 =>
      simp only [hrow] at h
      refine ih r0 r1 h ?_ (fun r hr => hrows r (List.mem_cons_of_mem _ hr))
      rcases readBedRow_ok ranges r0 row hrow with e | ⟨chr, start, stop, hs, he, e⟩
      · rw [e]; exact hinv
      · intro chrom arr harr
        rw [e] at harr
        by_cases hk : chrom = chr
        · subst hk
          simp only [Function.update_same, Option.some.injEq] at harr
          subst harr
          refine ⟨by simp, ?_⟩
          intro iv hiv
          rcases List.mem_append.mp hiv with hm | hm
          · cases hr : ranges chrom with
            | none => simp [hr] at hm
            | some bucket =>
              simp only [hr, Option.getD_some] at hm
              exact (hinv chrom bucket hr).2 iv hm
          · simp only [List.mem_singleton] at hm
            rw [hm]
            exact hrows row (by simp) start stop hs he
        · rw [Function.update_noteq hk] at harr
          exact hinv chrom arr harr

/-- The invariant of the read loop carried to the index `readBed` returns. -/
theorem readBedContent_invariant (P : Interval → Prop) (S : SliceSorter) (content : GoString)
    (idx : Ranges) (h : readBedContent S content = .ok idx)
    (hrows : ∀ row ∈ ReadRows '\n' content, ∀ start stop : Int,
      Atoi ((Split '\t' (row.take (row.length - 1))).getD 1 []) = some start →
      Atoi ((Split '\t' (row.take (row.length - 1))).getD 2 []) = some stop →
      P [start, stop]) :
    ∀ chrom arr, idx chrom = some arr → arr ≠ [] ∧ ∀ iv ∈ arr, P iv := by
  unfold readBedContent at h
  cases hl : readBedLoop (fun _ => none) (ReadRows '\n' content) with
  | error f => simp [hl] at h
  | ok r =>
    simp only [hl, Except.ok.injEq] at h
    intro chrom arr harr
    rw [← h] at harr
    cases hr : r chrom with
    | none => simp [hr] at harr
    | some bucket =>
      simp only [hr, Option.map_some', Option.some.injEq] at harr
      obtain ⟨hne, hall⟩ := readBedLoop_invariant P _ _ r hl (by simp) hrows chrom bucket hr
      have hperm : arr.Perm bucket := harr ▸ S.perm bucket
      refine ⟨?_, fun iv hiv => hall iv (hperm.subset hiv)⟩
      intro e
      rw [e] at hperm
      exact hne (List.Perm.eq_nil hperm.symm)

/-- C11 as stated fails: `readBed` accepts the one-row file `1 200 100` and stores the
interval (200,100), whose start is greater than its end. -/
theorem interval_start_after_end :
    (readBedContent insertionSorter "1\t200\t100\n".toList).map
        (fun idx => idx "chr1".toList) = .ok (some [[200, 100]]) ∧
    ¬ ((200 : Int) ≤ 100) := by
  decide

/-- C11 amended (interval well-formedness on well-formed rows): for every interval file
that `readBed` accepts and in which every row read has start <= end, every interval
stored in the returned index is a pair `[start, end]` with start <= end. -/
theorem interval_well_formed (S : SliceSorter) (content : GoString) (idx : Ranges)
    (h : readBedContent S content = .ok idx)
    (hrows : ∀ row ∈ ReadRows '\n' content, ∀ start stop : Int,
      Atoi ((Split '\t' (row.take (row.length - 1))).getD 1 []) = some start →
      Atoi ((Split '\t' (row.take (row.length - 1))).getD 2 []) = some stop →
      start ≤ stop) :
    ∀ chrom arr, idx chrom = some arr →
      ∀ iv ∈ arr, ∃ start stop : Int, iv = [start, stop] ∧ start ≤ stop := by
  intro chrom arr harr
  exact (readBedContent_invariant (fun iv => ∃ start stop : Int, iv = [start, stop] ∧
    start ≤ stop) S content idx h
    (fun row hrow start stop hs he => ⟨start, stop, rfl, hrows row hrow start stop hs he⟩)
    chrom arr harr).2

/-- An instance of the amended C11: the one-row file `1 100 200`. -/
theorem interval_well_formed_one_row :
    readBedContent insertionSorter "1\t100\t200\n".toList =
      .ok (fun chr => (Function.update (fun _ => none) "chr1".toList
        (some [[100, 200]]) chr : Option (List Interval)).map insertionSorter.sort) ∧
    ∀ chrom arr,
      (fun chr => (Function.update (fun _ => none) "chr1".toList
        (some [[100, 200]]) chr : Option (List Interval)).map insertionSorter.sort) chrom =
        some arr →
      ∀ iv ∈ arr, ∃ start stop : Int, iv = [start, stop] ∧ start ≤ stop :=
  ⟨rfl,
   interval_well_formed insertionSorter "1\t100\t200\n".toList _ rfl (by
    intro row hrow start stop hs he
    have hr : row = "1\t100\t200\n".toList := by
      have : ReadRows '\n' "1\t100\t200\n".toList = ["1\t100\t200\n".toList] := by decide
      rw [this] at hrow
      simpa using hrow
    subst hr
    have h1 : Atoi ((Split '\t' ("1\t100\t200\n".toList.take
        ("1\t100\t200\n".toList.length - 1))).getD 1 []) = some 100 := by decide
    have h2 : Atoi ((Split '\t' ("1\t100\t200\n".toList.take
        ("1\t100\t200\n".toList.length - 1))).getD 2 []) = some 200 := by decide
    rw [h1] at hs
    rw [h2] at he
    simp only [Option.some.injEq] at hs he
    omega)⟩

/-! ## The unterminated final row -/

theorem ReadRows_of_not_mem (d : Char) (t : GoString) (h : d ∉ t) : ReadRows d t = [] := by
  induction t with
  | nil => rfl
  | cons c cs ih =>
    have hc : c ≠ d := fun e => h (by simp [e])
    have hcs : d ∉ cs := fun e => h (by simp [e])
    simp [ReadRows, hc, ih hcs]

/-- Bytes without a delimiter appended to the input do not change the rows read. -/
theorem ReadRows_append_unterminated (d : Char) (c t : GoString) (h : d ∉ t) :
    ReadRows d (c ++ t) = ReadRows d c := by
  induction c with
  | nil => simpa [ReadRows] using ReadRows_of_not_mem d t h
  | cons x cs ih =>
    show ReadRows d (x :: (cs ++ t)) = ReadRows d (x :: cs)
    simp only [ReadRows, ih]

/-- C16 (unterminated final row ignored): for every interval file content `c` (in
particular one made of newline-terminated rows) and every text `t` without a newline
(in particular a non-empty one), `readBed` on `c` followed by `t` returns what it returns on `c` alone, index or
failure; a file that is just such a `t` yields the empty index without error. -/
theorem unterminated_final_row_ignored (S : SliceSorter) (c t : GoString)
    (hnl : '\n' ∉ t)
    (files : GoString → Option GoString) (path : GoString) (hpath : path ≠ []) :
    readBedContent S (c ++ t) = readBedContent S c ∧
    readBedContent S t = .ok (fun _ => none) ∧
    (readBed S (Function.update files path (some (c ++ t))) path =
      readBed S (Function.update files path (some c)) path) := by
  have h1 : readBedContent S (c ++ t) = readBedContent S c := by
    unfold readBedContent
    rw [ReadRows_append_unterminated '\n' c t hnl]
  refine ⟨h1, ?_, ?_⟩
  · unfold readBedContent
    rw [ReadRows_of_not_mem '\n' t hnl]
    rfl
  · unfold readBed
    simp only [if_neg hpath, Function.update_same]
    exact h1

/-- An instance of C16: the row `1 100 200` without a trailing newline is ignored,
after the complete row `2 5 9` and on its own. -/
theorem unterminated_final_row_ignored_example :
    "1\t100\t200".toList ≠ [] ∧ '\n' ∉ "1\t100\t200".toList ∧
    readBedContent insertionSorter ("2\t5\t9\n".toList ++ "1\t100\t200".toList) =
      readBedContent insertionSorter "2\t5\t9\n".toList ∧
    readBedContent insertionSorter "1\t100\t200".toList = .ok (fun _ => none) :=
  ⟨by decide, by decide,
   (unterminated_final_row_ignored insertionSorter "2\t5\t9\n".toList "1\t100\t200".toList
    (by decide) (fun _ => none) "a.bed".toList (by decide)).1,
   (unterminated_final_row_ignored insertionSorter "2\t5\t9\n".toList "1\t100\t200".toList
    (by decide) (fun _ => none) "a.bed".toList (by decide)).2.1⟩

/-! ## Error conditions of the builder -/

/-- On rows of at least three tab-free columns the read loop ends in `log.Fatal` as
soon as a start or end column is not an integer text. -/
theorem readBedLoop_rows_fatal (rows : List (List GoString)) :
    ∀ ranges : Ranges,
    (∀ cols ∈ rows, 3 ≤ cols.length) →
    (∀ cols ∈ rows, ∀ f ∈ cols, '\t' ∉ f) →
    (∃ cols ∈ rows, Atoi (cols.getD 1 []) = none ∨ Atoi (cols.getD 2 []) = none) →
    readBedLoop ranges (rows.map (fun cols => joinCols '\t' cols ++ ['\n'])) =
      .error .fatal := by
  induction rows with
  | nil =>
    intro ranges _ _ hbad
    obtain ⟨cols, hc, _⟩ := hbad
    simp at hc
  | cons cols rest ih =>
    intro ranges h3 htab hbad
    have hl := h3 cols (by simp)
    have ht := htab cols (by simp)
    rcases cols with _ | ⟨c0, _ | ⟨c1, _ | ⟨c2, more⟩⟩⟩ <;>
      simp only [List.length_nil, List.length_cons, List.length_singleton] at hl <;>
      try omega
    have hrow := readBedRow_cols ranges c0 c1 c2 more ht
    simp only [List.map_cons, readBedLoop]
    cases hs : Atoi c1 with
    | none => simp [hrow, hs]
    | some start =>
      cases he : Atoi c2 with
      | none => simp [hrow, hs, he]
      | some stop =>
        simp only [hs, he] at hrow
        simp only [hrow]
        apply ih _ (fun c hc => h3 c (List.mem_cons_of_mem _ hc))
          (fun c hc => htab c (List.mem_cons_of_mem _ hc))
        obtain ⟨bad, hmem, hb⟩ := hbad
        rcases List.mem_cons.mp hmem with e | e
        · subst e
          simp only [List.getD_cons_succ, List.getD_cons_zero, hs, he] at hb
          simp at hb
        · exact ⟨bad, e, hb⟩

/-- C12 (builder error conditions): for an interval file of newline-terminated rows
with at least three tab-separated columns, opened from a non-empty path, `readBed` ends
in a fatal error exactly when some row has a start or end column that is not an integer
text, and returns an index exactly when no row has; it never panics on such a file; and
on the empty file it returns the empty index. -/
theorem builder_error_conditions (S : SliceSorter) (rows : List (List GoString))
    (files : GoString → Option GoString) (path : GoString)
    (h3 : ∀ cols ∈ rows, 3 ≤ cols.length)
    (hclean : ∀ cols ∈ rows, ∀ f ∈ cols, '\t' ∉ f ∧ '\n' ∉ f)
    (hpath : path ≠ []) (hopen : files path = some (bedFile rows)) :
    (readBed S files path = .error .fatal ↔
      ∃ cols ∈ rows, Atoi (cols.getD 1 []) = none ∨ Atoi (cols.getD 2 []) = none) ∧
    ((∃ idx, readBed S files path = .ok idx) ↔
      ∀ cols ∈ rows, (Atoi (cols.getD 1 [])).isSome ∧ (Atoi (cols.getD 2 [])).isSome) ∧
    readBed S files path ≠ .error .panic ∧
    readBed S (Function.update files path (some [])) path = .ok (fun _ => none) := by
  have hrows := ReadRows_bedFile rows (fun cols hc f hf => (hclean cols hc f hf).2)
  have htab : ∀ cols ∈ rows, ∀ f ∈ cols, '\t' ∉ f := fun cols hc f hf => (hclean cols hc f hf).1
  have hval : readBed S files path = readBedContent S (bedFile rows) := by
    unfold readBed
    rw [if_neg hpath, hopen]
  have hgood : (∀ cols ∈ rows, (Atoi (cols.getD 1 [])).isSome ∧ (Atoi (cols.getD 2 [])).isSome) →
      ∃ idx, readBedContent S (bedFile rows) = .ok idx := by
    intro hint
    obtain ⟨r1, hr1, _⟩ := readBedLoop_rows rows (fun _ => none) h3 htab hint
    exact ⟨_, by unfold readBedContent; rw [hrows, hr1]⟩
  have hbad : (∃ cols ∈ rows, Atoi (cols.getD 1 []) = none ∨ Atoi (cols.getD 2 []) = none) →
      readBedContent S (bedFile rows) = .error .fatal := by
    intro hb
    unfold readBedContent
    rw [hrows, readBedLoop_rows_fatal rows _ h3 htab hb]
  have hcases : (∃ cols ∈ rows, Atoi (cols.getD 1 []) = none ∨ Atoi (cols.getD 2 []) = none) ∨
      ∀ cols ∈ rows, (Atoi (cols.getD 1 [])).isSome ∧ (Atoi (cols.getD 2 [])).isSome := by
    by_cases hb : ∃ cols ∈ rows, Atoi (cols.getD 1 []) = none ∨ Atoi (cols.getD 2 []) = none
    · exact Or.inl hb
    · right
      intro cols hc
      constructor
      · cases ha : Atoi (cols.getD 1 []) with
        | none => exact absurd ⟨cols, hc, Or.inl ha⟩ hb
        | some v => rfl
      · cases ha : Atoi (cols.getD 2 []) with
        | none => exact absurd ⟨cols, hc, Or.inr ha⟩ hb
        | some v => rfl
  rw [hval]
  refine ⟨⟨?_, hbad⟩, ⟨?_, hgood⟩, ?_, ?_⟩
  · intro hf
    rcases hcases with hb | hg
    · exact hb
    · obtain ⟨idx, hi⟩ := hgood hg
      rw [hi] at hf
      cases hf
  · rintro ⟨idx, hi⟩
    rcases hcases with hb | hg
    · rw [hbad hb] at hi
      cases hi
    · exact hg
  · rcases hcases with hb | hg
    · rw [hbad hb]
      intro e
      cases e
    · obtain ⟨idx, hi⟩ := hgood hg
      rw [hi]
      intro e
      cases e
  · unfold readBed
    rw [if_neg hpath]
    simp only [Function.update_same]
    rfl

/-- An instance of C12: the file with rows `1 100 200` and `2 x 9` ends in a fatal
error, because `x` is not an integer text. -/
theorem builder_error_conditions_bad_start :
    (∀ cols ∈ [["1".toList, "100".toList, "200".toList], ["2".toList, "x".toList, "9".toList]],
      3 ≤ cols.length) ∧
    (∀ cols ∈ [["1".toList, "100".toList, "200".toList], ["2".toList, "x".toList, "9".toList]],
      ∀ f ∈ cols, '\t' ∉ f ∧ '\n' ∉ f) ∧
    "a.bed".toList ≠ [] ∧
    bedFile [["1".toList, "100".toList, "200".toList], ["2".toList, "x".toList, "9".toList]] =
      "1\t100\t200\n2\tx\t9\n".toList ∧
    readBed insertionSorter (fun _ => some (bedFile [["1".toList, "100".toList, "200".toList],
      ["2".toList, "x".toList, "9".toList]])) "a.bed".toList = .error .fatal :=
  ⟨by decide, by decide, by decide, by decide,
   (builder_error_conditions insertionSorter
    [["1".toList, "100".toList, "200".toList], ["2".toList, "x".toList, "9".toList]]
    (fun _ => some (bedFile [["1".toList, "100".toList, "200".toList],
      ["2".toList, "x".toList, "9".toList]])) "a.bed".toList
    (by decide) (by decide) (by decide) rfl).1.mpr
    ⟨["2".toList, "x".toList, "9".toList], by decide, Or.inl (by decide)⟩⟩

/-! ## The per-record decision -/

theorem exists_pairs (arr : List Interval) (h : ∀ iv ∈ arr, iv.length = 2) :
    ∃ pairs : List (Int × Int), arr = pairs.map (fun iv => [iv.1, iv.2]) := by
  induction arr with
  | nil => exact ⟨[], rfl⟩
  | cons iv rest ih =>
    obtain ⟨pairs, hp⟩ := ih (fun x hx => h x (List.mem_cons_of_mem _ hx))
    have hl := h iv (by simp)
    rcases iv with _ | ⟨s, _ | ⟨e, _ | ⟨x, more⟩⟩⟩ <;> simp at hl
    exact ⟨(s, e) :: pairs, by simp [hp]⟩

/-- The containment check on a non-empty list of two-element intervals: it sends the
message exactly when the position lies in the first interval and is not past the end of
the last one. -/
theorem containment_pairs (pos : Int) (a : Int × Int) (rest : List (Int × Int))
    (record : List GoString) (row : GoString) (m : Msg)
    (hm : hitMessage record row = .ok m) :
    containment pos ((a :: rest).map (fun iv => [iv.1, iv.2])) record row =
      if a.1 ≤ pos ∧ pos ≤ a.2 ∧ pos ≤ ((a :: rest).getLast (by simp)).2 then .ok [m]
      else .ok [] := by
  have hlast : ((a :: rest).map (fun iv : Int × Int => [iv.1, iv.2]))[((a :: rest).map
      (fun iv : Int × Int => [iv.1, iv.2])).length - 1]? =
      some [((a :: rest).getLast (by simp)).1, ((a :: rest).getLast (by simp)).2] := by
    rw [← List.getLast?_eq_getElem?, List.getLast?_map,
      List.getLast?_eq_getLast _ (by simp)]
    rfl
  unfold containment
  rw [hlast]
  simp only [List.map_cons, List.getElem?_cons_zero, List.getElem?_cons_succ]
  by_cases h0 : pos < a.1
  · rw [if_pos h0, if_neg (fun h => absurd h.1 (not_le.mpr h0))]
  · rw [if_neg h0]
    by_cases hN : pos > ((a :: rest).getLast (by simp)).2
    · rw [if_pos hN, if_neg (fun h => absurd h.2.2 (not_le.mpr hN))]
    · rw [if_neg hN]
      simp only [scanLoop, List.getElem?_cons_zero, List.getElem?_cons_succ, hm]
      by_cases h1 : pos ≤ a.2
      · rw [if_pos ⟨not_lt.mp h0, h1⟩, if_pos ⟨not_lt.mp h0, h1, not_lt.mp hN⟩]
      · rw [if_neg (fun h => h1 h.2), if_pos (not_le.mp h1),
          if_neg (fun h => h1 h.2.1)]

theorem firstIntervalHit_pairs (pos : Int) (a : Int × Int) (rest : List (Int × Int)) :
    firstIntervalHit ((a :: rest).map (fun iv => [iv.1, iv.2])) pos ↔
      (a.1 ≤ pos ∧ pos ≤ a.2 ∧ pos ≤ ((a :: rest).getLast (by simp)).2) := by
  unfold firstIntervalHit
  rw [List.getLast?_map, List.getLast?_eq_getLast _ (by simp)]
  simp only [List.map_cons, List.head?_cons, Option.some.injEq, List.cons.injEq, and_true,
    Option.map_some']
  constructor
  · rintro ⟨s0, e0, sN, eN, ⟨h1, h2⟩, ⟨_, h4⟩, h5, h6, h7⟩
    rw [h1, h2, h4]
    exact ⟨h5, h6, h7⟩
  · rintro ⟨h5, h6, h7⟩
    exact ⟨_, _, _, _, ⟨rfl, rfl⟩, ⟨rfl, rfl⟩, h5, h6, h7⟩

/-- The containment check on a well-formed bucket, in terms of the hit condition. -/
theorem containment_wf (pos : Int) (arr : List Interval) (record : List GoString)
    (row : GoString) (m : Msg) (hne : arr ≠ []) (h2 : ∀ iv ∈ arr, iv.length = 2)
    (hm : hitMessage record row = .ok m) :
    (firstIntervalHit arr pos → containment pos arr record row = .ok [m]) ∧
    (¬ firstIntervalHit arr pos → containment pos arr record row = .ok []) := by
  obtain ⟨pairs, hp⟩ := exists_pairs arr h2
  subst hp
  cases pairs with
  | nil => exact absurd rfl hne
  | cons a rest =>
    rw [firstIntervalHit_pairs, containment_pairs pos a rest record row m hm]
    constructor
    · intro h
      rw [if_pos h]
    · intro h
      rw [if_neg h]

/-- The value of `processRow` on a non-comment row of at least seven tab-free columns
with an integer position, over a well-formed index. -/
theorem processRow_decision (n : Nat) (ranges : Ranges) (c0 c1 c2 c3 c4 c5 c6 : GoString)
    (rest : List GoString) (term : GoString) (pos : Int)
    (htab : ∀ f ∈ c0 :: c1 :: c2 :: c3 :: c4 :: c5 :: c6 :: rest, '\t' ∉ f)
    (hterm : term.length = n)
    (hhash : (joinCols '\t' (c0 :: c1 :: c2 :: c3 :: c4 :: c5 :: c6 :: rest) ++ term).head? ≠
      some '#')
    (hpos : Atoi c1 = some pos) (hwf : WellFormedIndex ranges) :
    ((c6 = PASS ∧ ∃ arr, ranges (canonName c0) = some arr ∧ firstIntervalHit arr pos) →
      processRow n ranges (joinCols '\t' (c0 :: c1 :: c2 :: c3 :: c4 :: c5 :: c6 :: rest) ++ term) =
        .ok [(variantKey (canonName c0) c1 c3 c4,
          joinCols '\t' (c0 :: c1 :: c2 :: c3 :: c4 :: c5 :: c6 :: rest) ++ term)]) ∧
    (¬ (c6 = PASS ∧ ∃ arr, ranges (canonName c0) = some arr ∧ firstIntervalHit arr pos) →
      processRow n ranges (joinCols '\t' (c0 :: c1 :: c2 :: c3 :: c4 :: c5 :: c6 :: rest) ++ term) =
        .ok []) := by
  rw [processRow_cols n ranges c0 c1 c2 c3 c4 c5 c6 rest term htab hterm, if_neg hhash]
  generalize joinCols '\t' (c0 :: c1 :: c2 :: c3 :: c4 :: c5 :: c6 :: rest) ++ term = row
  by_cases hpass : c6 = PASS
  · rw [if_neg (not_not.mpr hpass)]
    cases hr : ranges (canonName c0) with
    | none =>
      constructor
      · rintro ⟨_, arr, harr, _⟩
        cases harr
      · intro _
        rfl
    | some arr =>
      simp only [hpos]
      obtain ⟨hne, h2⟩ := hwf _ arr hr
      have hm : hitMessage (canonName c0 :: c1 :: c2 :: c3 :: c4 :: c5 :: c6 :: rest) row =
          .ok (variantKey (canonName c0) c1 c3 c4, row) := rfl
      obtain ⟨hyes, hno⟩ := containment_wf pos arr _ row _ hne h2 hm
      constructor
      · rintro ⟨_, arr2, harr, hhit⟩
        simp only [Option.some.injEq] at harr
        subst harr
        exact hyes hhit
      · intro hnot
        exact hno (fun hhit => hnot ⟨hpass, arr, rfl, hhit⟩)
  · rw [if_pos hpass]
    constructor
    · rintro ⟨hp, _⟩
      exact absurd hp hpass
    · intro _
      rfl

/-- C14 (per-record decision): over an index whose buckets are non-empty lists of
two-element intervals, a non-comment record of at least seven columns with integer
position `pos` is published (the message of its key and row is sent) if and only if
its filter column is `PASS`, its canonical chromosome has a bucket, and `pos` lies in
the first interval of the bucket and is not past the end of the last; otherwise
nothing is sent; and a published position lies inside an interval of the bucket. -/
theorem record_decision (n : Nat) (ranges : Ranges) (c0 c1 c2 c3 c4 c5 c6 : GoString)
    (rest : List GoString) (term : GoString) (pos : Int)
    (htab : ∀ f ∈ c0 :: c1 :: c2 :: c3 :: c4 :: c5 :: c6 :: rest, '\t' ∉ f)
    (hterm : term.length = n)
    (hhash : (joinCols '\t' (c0 :: c1 :: c2 :: c3 :: c4 :: c5 :: c6 :: rest) ++ term).head? ≠
      some '#')
    (hpos : Atoi c1 = some pos) (hwf : WellFormedIndex ranges) :
    (processRow n ranges (joinCols '\t' (c0 :: c1 :: c2 :: c3 :: c4 :: c5 :: c6 :: rest) ++ term) =
        .ok [(variantKey (canonName c0) c1 c3 c4,
          joinCols '\t' (c0 :: c1 :: c2 :: c3 :: c4 :: c5 :: c6 :: rest) ++ term)] ↔
      (c6 = PASS ∧ ∃ arr, ranges (canonName c0) = some arr ∧ firstIntervalHit arr pos)) ∧
    (¬ (c6 = PASS ∧ ∃ arr, ranges (canonName c0) = some arr ∧ firstIntervalHit arr pos) →
      processRow n ranges (joinCols '\t' (c0 :: c1 :: c2 :: c3 :: c4 :: c5 :: c6 :: rest) ++ term) =
        .ok []) ∧
    ((c6 = PASS ∧ ∃ arr, ranges (canonName c0) = some arr ∧ firstIntervalHit arr pos) →
      ∃ arr, ranges (canonName c0) = some arr ∧
        ∃ s e : Int, [s, e] ∈ arr ∧ s ≤ pos ∧ pos ≤ e) := by
  obtain ⟨hyes, hno⟩ := processRow_decision n ranges c0 c1 c2 c3 c4 c5 c6 rest term pos htab
    hterm hhash hpos hwf
  refine ⟨⟨?_, hyes⟩, hno, ?_⟩
  · intro h
    by_contra hnot
    rw [hno hnot] at h
    cases h
  · rintro ⟨_, arr, harr, s0, e0, _, _, hhead, _, h1, h2, _⟩
    exact ⟨arr, harr, s0, e0, List.mem_of_mem_head? hhead, h1, h2⟩

/-- An instance of C14: over the bucket `[[1,2],[5,6]]` of `chr1`, the PASS record at
chromosome 1, position 5 is published exactly when 5 lies in the first interval (1,2),
which it does not. -/
theorem record_decision_second_interval :
    (∀ f ∈ ["1".toList, "5".toList, ".".toList, "A".toList, "G".toList, "50".toList, PASS,
      ".".toList], '\t' ∉ f) ∧
    Atoi "5".toList = some 5 ∧
    (processRow 1 (fun c => if c = "chr1".toList then some [[1, 2], [5, 6]] else none)
        (joinCols '\t' ["1".toList, "5".toList, ".".toList, "A".toList, "G".toList,
          "50".toList, PASS, ".".toList] ++ ['\n']) =
        .ok [(variantKey (canonName "1".toList) "5".toList "A".toList "G".toList,
          joinCols '\t' ["1".toList, "5".toList, ".".toList, "A".toList, "G".toList,
            "50".toList, PASS, ".".toList] ++ ['\n'])] ↔
      (PASS = PASS ∧ ∃ arr,
        (fun c => if c = "chr1".toList then some [[1, 2], [5, 6]] else none)
          (canonName "1".toList) = some arr ∧ firstIntervalHit arr 5)) :=
  ⟨by decide, by decide,
   (record_decision 1 (fun c => if c = "chr1".toList then some [[1, 2], [5, 6]] else none)
    "1".toList "5".toList ".".toList "A".toList "G".toList "50".toList PASS [".".toList]
    ['\n'] 5 (by decide) rfl (by decide) (by decide) (by
      intro chrom arr h
      by_cases hc : chrom = "chr1".toList
      · simp only [hc, if_true, Option.some.injEq] at h
        subst h
        decide
      · simp only [hc, if_false] at h
        cases h)).1⟩

/-! ## Index access safety -/

/-- Over a well-formed index, the record handling of `processLines` does not panic on
a row whose record has at least seven columns. -/
theorem processRow_no_panic (n : Nat) (ranges : Ranges) (row : GoString)
    (hwf : WellFormedIndex ranges) (hn : n ≤ row.length)
    (h7 : 7 ≤ (Split '\t' (row.take (row.length - n))).length) :
    processRow n ranges row ≠ .error .panic := by
  obtain ⟨hrow, hterm⟩ := row_eq_joinCols n row hn
  have htab : ∀ f ∈ Split '\t' (row.take (row.length - n)), '\t' ∉ f :=
    fun f hf => not_mem_of_mem_Split '\t' _ f hf
  generalize Split '\t' (row.take (row.length - n)) = record at h7 hrow htab
  generalize row.drop (row.length - n) = term at hrow hterm
  rcases record with _ | ⟨c0, _ | ⟨c1, _ | ⟨c2, _ | ⟨c3, _ | ⟨c4, _ | ⟨c5, _ | ⟨c6, rest⟩⟩⟩⟩⟩⟩⟩ <;>
    simp only [List.length_nil, List.length_cons] at h7 <;> try omega
  subst hrow
  by_cases hhash : (joinCols '\t' (c0 :: c1 :: c2 :: c3 :: c4 :: c5 :: c6 :: rest) ++ term).head? =
      some '#'
  · rw [processRow_cols n ranges c0 c1 c2 c3 c4 c5 c6 rest term htab hterm, if_pos hhash]
    intro e
    cases e
  · cases hp : Atoi c1 with
    | none =>
      rw [processRow_cols n ranges c0 c1 c2 c3 c4 c5 c6 rest term htab hterm, if_neg hhash]
      split
      · intro e
        cases e
      · cases ranges (canonName c0) with
        | none =>
          intro e
          cases e
        | some arr =>
          simp only [hp]
          intro e
          cases e
    | some pos =>
      obtain ⟨hyes, hno⟩ := processRow_decision n ranges c0 c1 c2 c3 c4 c5 c6 rest term pos
        htab hterm hhash hp hwf
      by_cases hc : c6 = PASS ∧ ∃ arr, ranges (canonName c0) = some arr ∧ firstIntervalHit arr pos
      · rw [hyes hc]
        intro e
        cases e
      · rw [hno hc]
        intro e
        cases e

/-- The read loop of `readBed` does not panic on a newline-terminated row whose record
has at least three columns. -/
theorem readBedRow_no_panic (ranges : Ranges) (row : GoString)
    (hnl : row.getLast? = some '\n')
    (h3 : 3 ≤ (Split '\t' (row.take (row.length - 1))).length) :
    readBedRow ranges row ≠ .error .panic := by
  obtain ⟨body, hbody⟩ := List.getLast?_eq_some_iff.mp hnl
  subst hbody
  have htake : (body ++ ['\n']).take ((body ++ ['\n']).length - 1) = body := by
    rw [List.length_append]
    exact List.take_left' rfl
  rw [htake] at h3
  have htab : ∀ f ∈ Split '\t' body, '\t' ∉ f :=
    fun f hf => not_mem_of_mem_Split '\t' _ f hf
  have hjoin := joinCols_Split '\t' body
  generalize Split '\t' body = record at h3 htab hjoin
  rcases record with _ | ⟨c0, _ | ⟨c1, _ | ⟨c2, rest⟩⟩⟩ <;>
    simp only [List.length_nil, List.length_cons] at h3 <;> try omega
  rw [← hjoin, readBedRow_cols ranges c0 c1 c2 rest htab]
  cases Atoi c1 with
  | none =>
    intro e
    cases e
  | some start =>
    cases Atoi c2 with
    | none =>
      intro e
      cases e
    | some stop =>
      intro e
      cases e

/-- C15 (index access safety): every bucket of an index returned by `readBed` is a
non-empty list of two-element intervals; over every such index the record handling of
`processLines` never panics (no slice or index access is out of bounds) on a row whose
record has at least seven columns; and the row handling of `readBed` never panics on a
newline-terminated row whose record has at least three columns. -/
theorem index_access_safety (S : SliceSorter) (content : GoString) (idx : Ranges)
    (h : readBedContent S content = .ok idx) :
    WellFormedIndex idx ∧
    (∀ (n : Nat) (row : GoString), n ≤ row.length →
      7 ≤ (Split '\t' (row.take (row.length - n))).length →
      processRow n idx row ≠ .error .panic) ∧
    (∀ (ranges : Ranges) (row : GoString), row.getLast? = some '\n' →
      3 ≤ (Split '\t' (row.take (row.length - 1))).length →
      readBedRow ranges row ≠ .error .panic) := by
  have hwf : WellFormedIndex idx :=
    readBedContent_invariant (fun iv => iv.length = 2) S content idx h
      (fun _ _ _ _ _ _ => rfl)
  exact ⟨hwf, fun n row hn h7 => processRow_no_panic n idx row hwf hn h7,
    fun ranges row hnl h3 => readBedRow_no_panic ranges row hnl h3⟩

/-- An instance of C15: the index of the one-row file `1 100 200` and the PASS record
at chromosome 1, position 150. -/
theorem index_access_safety_one_row :
    readBedContent insertionSorter "1\t100\t200\n".toList =
      .ok (fun chr => (Function.update (fun _ => none) "chr1".toList
        (some [[100, 200]]) chr : Option (List Interval)).map insertionSorter.sort) ∧
    processRow 1 (fun chr => (Function.update (fun _ => none) "chr1".toList
        (some [[100, 200]]) chr : Option (List Interval)).map insertionSorter.sort)
      "1\t150\t.\tA\tG\t50\tPASS\t.\n".toList ≠ .error .panic :=
  ⟨rfl,
   (index_access_safety insertionSorter "1\t100\t200\n".toList _ rfl).2.1 1
    "1\t150\t.\tA\tG\t50\tPASS\t.\n".toList (by decide) (by decide)⟩

/-! ## The empty glob -/

/-- C13 (empty glob) at a pattern that matches no file: `filepath.Glob` returns the
empty list without error, and `readVcf` then evaluates `files[0]` (line 165), which is
a run-time panic (index out of range), not a fatal error with a message; for
comparison, a first file that cannot be opened is reported by `log.Fatal`, as is the
empty `bedPath` in `readBed`. -/
theorem empty_glob_panics (opened : GoString → Option OpenedVcf) (S : SliceSorter)
    (files : GoString → Option GoString) :
    readVcfHeader (some []) opened = .error .panic ∧
    readVcfHeader (some []) opened ≠ .error .fatal ∧
    readVcfHeader (some ["a.vcf.gz".toList]) (fun _ => none) = .error .fatal ∧
    readBed S files [] = .error .fatal := by
  refine ⟨rfl, ?_, rfl, rfl⟩
  intro e
  cases e

end VcfBed
